import Mathlib

/-!
Shallow embedding of the ICPC contest scoreboard engine (`src/main.cpp`):
the ranking comparator, the freeze/scroll reveal machinery and the query
services, together with theorems checking the specification's claims.
-/

namespace ICPC

/-! ### Lexicographic comparison (C++ `std::vector` / `std::string` `operator<`) -/

/-- Lexicographic comparison: `lexLt a b` embeds C++ `std::lexicographical_compare` on sequences:
the first unequal position decides, a proper prefix is smaller. -/
def lexLt {α : Type} [LinearOrder α] : List α → List α → Bool
  | _, [] => false
  | [], _ :: _ => true
  | a :: as, b :: bs =>
    if a < b then true
    else if b < a then false
    else lexLt as bs
/-- Embeds C++ `std::string` `operator<`: lexicographic comparison of the characters. -/
def strLt (a b : String) : Bool := lexLt a.toList b.toList
/-! ### Sorting (embedding of `std::sort` with a strict comparator)

`std::sort` with an irreflexive, asymmetric, transitive comparator that is
total on the elements occurring in the list has a unique possible output,
so an insertion sort with the same comparator is a faithful embedding. -/

/-- Insert `x` in front of the first element it beats under `lt`. -/
def insertBy {α : Type} (lt : α → α → Bool) (x : α) : List α → List α
  | [] => [x]
  | y :: ys => if lt x y then x :: y :: ys else y :: insertBy lt x ys
/-- Sort by the strict comparator `lt` (best-first when `lt` means "better"). -/
def sortBy {α : Type} (lt : α → α → Bool) (l : List α) : List α :=
  l.foldr (insertBy lt) []
/-- First-match position, embedding the C++ pattern
`for (i = 0; i < v.size(); i++) if (pred(v[i])) { found at i; break; }`. -/
def posOf {α : Type} (p : α → Bool) : List α → Option Nat
  | [] => none
  | a :: l => if p a then some 0 else (posOf p l).map (· + 1)
/-! ### Data model (`Submission`, `ProblemStatus`, `Team`, `ICPCSystem`) -/

/-- The C++ `struct Submission { string problem; string status; int time; }`. -/
structure Submission where
  problem : String
  status : String
  time : Nat
deriving DecidableEq
/-- The C++ `struct ProblemStatus` with default constructor
`solved=false, solveTime=0, wrongAttempts=0, wasSolvedBeforeFreeze=false`. -/
structure ProblemStatus where
  solved : Bool := false
  solveTime : Nat := 0
  wrongAttempts : Nat := 0
  frozenSubs : List Submission := []
  wasSolvedBeforeFreeze : Bool := false
deriving DecidableEq
/-- The C++ `struct Team`; the default constructor `Team(string n = "")` leaves the
name empty, which is what `teams[teamName]` on a missing key produces. -/
structure Team where
  name : String := ""
  problems : List (String × ProblemStatus) := []
  submissions : List Submission := []
deriving DecidableEq
/-- The `ICPCSystem` state: `map<string,Team> teams`, registration list
`teamNames`, contest flags and the cached `lastRanking` snapshot. -/
structure ICPCSystem where
  teams : List (String × Team) := []
  teamNames : List String := []
  started : Bool := false
  frozen : Bool := false
  durationTime : Nat := 0
  problemCount : Nat := 0
  problemList : List String := []
  lastRanking : List (String × Nat) := []
deriving DecidableEq
/-- The freshly constructed system. -/
def initState : ICPCSystem := {}
/-! Association-list reads and writes modelling the `std::map`s
(iteration order of the maps is never observable in the embedded code,
so keeping insertion order is faithful). -/

/-- A `std::map::find`-style association lookup (first matching key). -/
def getEntry {β : Type} : List (String × β) → String → Option β
  | [], _ => none
  | (k', v) :: rest, k => if k' = k then some v else getEntry rest k
def setEntry {β : Type} : List (String × β) → String → β → List (String × β)
  | [], k, v => [(k, v)]
  | (k', v') :: rest, k, v =>
    if k' = k then (k, v) :: rest else (k', v') :: setEntry rest k v
/-- Reading `teams[name]`: the stored team, or a default-constructed one. -/
def teamOf (sys : ICPCSystem) (name : String) : Team :=
  (getEntry sys.teams name).getD {}
/-- The `ProblemStatus` of `team.problems[prob]` as a read (default if absent). -/
def statusOf (sys : ICPCSystem) (name prob : String) : ProblemStatus :=
  (getEntry (teamOf sys name).problems prob).getD {}
/-- The team's submission ledger. -/
def ledgerOf (sys : ICPCSystem) (name : String) : List Submission :=
  (teamOf sys name).submissions
/-! ### Operations -/

/-- Embeds `addTeam`: rejected if started or duplicated; otherwise registers. -/
def addTeam (sys : ICPCSystem) (name : String) : ICPCSystem :=
  if sys.started then sys
  else if (getEntry sys.teams name).isSome then sys
  else { sys with
         teams := setEntry sys.teams name { name := name }
         teamNames := sys.teamNames ++ [name] }
/-- Embeds `start`: it sets the flags and builds `problemList = ["A", "B", ...]`. -/
def start (sys : ICPCSystem) (duration problems : Nat) : ICPCSystem :=
  if sys.started then sys
  else { sys with
         started := true
         durationTime := duration
         problemCount := problems
         problemList := (List.range problems).map fun i => String.mk [Char.ofNat (65 + i)] }
/-- The unfrozen update of a `ProblemStatus` by one submission
(the `else if (!ps.solved)` branch of `ICPCSystem::submit`). -/
def applySubmit (ps : ProblemStatus) (status : String) (time : Nat) : ProblemStatus :=
  if !ps.solved then
    if status = "Accepted" then
      { ps with solved := true, solveTime := time, wasSolvedBeforeFreeze := true }
    else
      { ps with wrongAttempts := ps.wrongAttempts + 1 }
  else ps
/-- Embeds `ICPCSystem::submit`: always appends to the ledger; hides the submission
in `frozenSubs` when frozen and not resolved pre-freeze, else applies it. -/
def submit (sys : ICPCSystem) (problem teamName status : String) (time : Nat) :
    ICPCSystem :=
  let sub : Submission := { problem := problem, status := status, time := time }
  let team0 := teamOf sys teamName
  let team1 := { team0 with submissions := team0.submissions ++ [sub] }
  let ps := (getEntry team1.problems problem).getD {}
  let ps' :=
    if sys.frozen && !ps.wasSolvedBeforeFreeze then
      { ps with frozenSubs := ps.frozenSubs ++ [sub] }
    else
      applySubmit ps status time
  let team2 := { team1 with problems := setEntry team1.problems problem ps' }
  { sys with teams := setEntry sys.teams teamName team2 }
/-! ### Ranking calculator -/

/-- The per-team aggregate `struct TeamRankInfo`. -/
structure TeamRankInfo where
  name : String
  solved : Nat
  penalty : Nat
  times : List Nat
deriving DecidableEq
/-- Whether a problem counts on the visible board:
`ps.solved && ps.wasSolvedBeforeFreeze`. -/
def countsSolved (t : Team) (prob : String) : Bool :=
  match getEntry t.problems prob with
  | some ps => ps.solved && ps.wasSolvedBeforeFreeze
  | none => false
/-- The counted problem's penalty `ps.solveTime + 20 * ps.wrongAttempts`. -/
def probPenalty (t : Team) (prob : String) : Nat :=
  let ps := (getEntry t.problems prob).getD {}
  ps.solveTime + 20 * ps.wrongAttempts
/-- The counted problem's solve time. -/
def probTime (t : Team) (prob : String) : Nat :=
  ((getEntry t.problems prob).getD {}).solveTime
/-- Descending sort (`sort(info.times.rbegin(), info.times.rend())`). -/
def sortDesc (l : List Nat) : List Nat :=
  sortBy (fun a b => decide (b < a)) l
/-- Embeds `ICPCSystem::getTeamRankInfo`: accumulate over `problemList` the counted
problems' number, penalties and (descending-sorted) solve times. -/
def getTeamRankInfo (sys : ICPCSystem) (teamName : String) : TeamRankInfo :=
  let t := teamOf sys teamName
  let counted := sys.problemList.filter (fun prob => countsSolved t prob)
  { name := teamName
    solved := counted.length
    penalty := (counted.map (fun prob => probPenalty t prob)).sum
    times := sortDesc (counted.map (fun prob => probTime t prob)) }
/-- The strict comparator of `calculateRanking`'s `sort` call:
more solved first, then lower penalty, then lexicographically smaller
descending solve-time sequence, then lexicographically smaller name. -/
def rankBetter (ta tb : TeamRankInfo) : Bool :=
  if ta.solved ≠ tb.solved then decide (ta.solved > tb.solved)
  else if ta.penalty ≠ tb.penalty then decide (ta.penalty < tb.penalty)
  else if ta.times ≠ tb.times then lexLt ta.times tb.times
  else strLt ta.name tb.name
/-- Rank assignment `ranking.push_back({name, i + 1})` over the sorted infos. -/
def assignRanks : Nat → List TeamRankInfo → List (String × Nat)
  | _, [] => []
  | i, info :: rest => (info.name, i + 1) :: assignRanks (i + 1) rest
/-- Embeds `ICPCSystem::calculateRanking`: sort the registered teams' infos by
`rankBetter` and assign ranks `1, 2, ...` in order. -/
def calculateRanking (sys : ICPCSystem) : List (String × Nat) :=
  assignRanks 0 (sortBy rankBetter (sys.teamNames.map (getTeamRankInfo sys)))
/-- Embeds `ICPCSystem::flush` (ignoring the info line): cache the ranking. -/
def flush (sys : ICPCSystem) : ICPCSystem :=
  { sys with lastRanking := calculateRanking sys }
/-- The freeze snapshot on one team:
every solved problem gets `wasSolvedBeforeFreeze = true`. -/
def freezeTeam (t : Team) : Team :=
  { t with problems := t.problems.map fun p =>
      (p.1, if p.2.solved then { p.2 with wasSolvedBeforeFreeze := true } else p.2) }
/-- Embeds `ICPCSystem::freeze`: fails (state unchanged) if already frozen. -/
def freeze (sys : ICPCSystem) : ICPCSystem :=
  if sys.frozen then sys
  else { sys with
         frozen := true
         teams := sys.teams.map fun p => (p.1, freezeTeam p.2) }
/-! ### Query services -/

/-- Scan of `lastRanking` for a team's rank, `0` when absent
(`for (p : lastRanking) if (p.first == name) { rank = p.second; break; }`). -/
def rankOf (ranking : List (String × Nat)) (name : String) : Nat :=
  match ranking.find? (fun p => p.1 = name) with
  | some p => p.2
  | none => 0
/-- Fallback rank: 1-based position in the sorted registration list, `0` when
absent (the `else` branch of `queryRanking`). -/
def alphaRank (names : List String) (name : String) : Nat :=
  match posOf (fun s => decide (s = name)) (sortBy strLt names) with
  | some i => i + 1
  | none => 0
/-- Outcome of `queryRanking`: unknown team, or success carrying whether the
frozen-staleness warning is printed and the reported rank. -/
inductive QueryRankingResult where
  | unknown : QueryRankingResult
  | ok : Bool → Nat → QueryRankingResult
deriving DecidableEq
/-- Embeds `ICPCSystem::queryRanking`. -/
def queryRanking (sys : ICPCSystem) (name : String) : QueryRankingResult :=
  if (getEntry sys.teams name).isNone then .unknown
  else
    .ok sys.frozen
      (if sys.lastRanking.isEmpty then alphaRank sys.teamNames name
       else rankOf sys.lastRanking name)
/-- Outcome of `querySubmission`. -/
inductive QuerySubmissionResult where
  | unknown : QuerySubmissionResult
  | notFound : QuerySubmissionResult
  | found : Submission → QuerySubmissionResult
deriving DecidableEq
/-- Embeds `ICPCSystem::querySubmission`: scan the ledger most-recent-first with
wildcard filters `"ALL"`. -/
def querySubmission (sys : ICPCSystem) (teamName problem status : String) :
    QuerySubmissionResult :=
  if (getEntry sys.teams teamName).isNone then .unknown
  else
    match (ledgerOf sys teamName).reverse.find? (fun sub =>
        (problem = "ALL" || sub.problem = problem) &&
        (status = "ALL" || sub.status = status)) with
    | some sub => .found sub
    | none => .notFound
/-! ### Scroll engine -/

/-- Whether a given team-problem pair has a non-empty hidden queue. -/
def hasNonemptyQueue (sys : ICPCSystem) (name prob : String) : Bool :=
  match getEntry sys.teams name with
  | some t =>
    match getEntry t.problems prob with
    | some ps => !ps.frozenSubs.isEmpty
    | none => false
  | none => false
/-- The inner scan of the selection loop: does this team have any problem
with a non-empty `frozenSubs` queue (over `problemList`)? -/
def teamHasFrozen (sys : ICPCSystem) (name : String) : Bool :=
  sys.problemList.any (fun prob => hasNonemptyQueue sys name prob)
/-- The selection scan over `lastRanking`, accumulating
`(hasFrozen, lowestTeam, lowestRank)` exactly as the C++ loop does. -/
def findLowestAux (sys : ICPCSystem) :
    List (String × Nat) → Bool × String × Nat → Bool × String × Nat
  | [], acc => acc
  | p :: rest, acc =>
    findLowestAux sys rest
      (if teamHasFrozen sys p.1 then
        (true, if p.2 > acc.2.2 then (p.1, p.2) else acc.2)
      else acc)
def findLowest (sys : ICPCSystem) : Bool × String × Nat :=
  findLowestAux sys sys.lastRanking (false, "", 0)
/-- One replayed hidden submission (the body of the replay loop in
`ICPCSystem::scroll`). -/
def replaySub (ps : ProblemStatus) (sub : Submission) : ProblemStatus :=
  if sub.status = "Accepted" && !ps.solved then
    { ps with solved := true, solveTime := sub.time, wasSolvedBeforeFreeze := true }
  else if sub.status ≠ "Accepted" && !ps.solved then
    { ps with wrongAttempts := ps.wrongAttempts + 1 }
  else ps
/-- What one reveal step of the scroll loop did. -/
structure ScrollStepResult where
  sys : ICPCSystem
  team : String
  prob : String
  oldRank : Nat
  newRank : Nat
  note : Option (String × String × Nat × Nat)
deriving DecidableEq
/-- The scan for `unfreezeProb`: first problem (in `problemList` order,
which is "A" < "B" < ... as built by `start`) whose hidden queue is
non-empty; `""` when there is none (the C++ check
`t.problems.count(prob) && !t.problems[prob].frozenSubs.empty()` is
exactly `hasNonemptyQueue`, a missing team having no problems). -/
def selectProb (sys : ICPCSystem) (name : String) : String :=
  (sys.problemList.find? (fun prob => hasNonemptyQueue sys name prob)).getD ""

/-- Replay a team-problem's hidden queue in order and clear it (the
`for (sub : ps.frozenSubs) ...; ps.frozenSubs.clear()` block). -/
def revealAt (sys : ICPCSystem) (name prob : String) : ICPCSystem :=
  let t := teamOf sys name
  let ps := (getEntry t.problems prob).getD {}
  let ps' := { ps.frozenSubs.foldl replaySub ps with frozenSubs := [] }
  let t' := { t with problems := setEntry t.problems prob ps' }
  { sys with teams := setEntry sys.teams name t' }

/-- One iteration of the `while (true)` loop of `ICPCSystem::scroll`;
`none` when `!hasFrozen` exits the loop. -/
def scrollStep (sys : ICPCSystem) : Option ScrollStepResult :=
  let res := findLowest sys
  if !res.1 then none
  else
    let lowestTeam := res.2.1
    let lowestRank := res.2.2
    let unfreezeProb := selectProb sys lowestTeam
    let sys1 := revealAt sys lowestTeam unfreezeProb
    let newRanking := calculateRanking sys1
    let sys2 := { sys1 with lastRanking := newRanking }
    let newRank := rankOf newRanking lowestTeam
    let note :=
      if newRank < lowestRank then
        let info := getTeamRankInfo sys2 lowestTeam
        let replacedTeam :=
          (match newRanking.find? (fun p => p.2 = newRank + 1) with
           | some p => p.1
           | none => "")
        some (lowestTeam, replacedTeam, info.solved, info.penalty)
      else none
    some { sys := sys2, team := lowestTeam, prob := unfreezeProb,
           oldRank := lowestRank, newRank := newRank, note := note }
/-- Run up to `n` reveal steps (the loop stops early at `none`). -/
def runSteps : Nat → ICPCSystem → ICPCSystem
  | 0, sys => sys
  | n + 1, sys =>
    match scrollStep sys with
    | none => sys
    | some r => runSteps n r.sys
/-- Number of registered team-problem pairs with a non-empty hidden queue:
the termination measure of the scroll loop. -/
def frozenPairCount (sys : ICPCSystem) : Nat :=
  (sys.teamNames.map
    (fun name => sys.problemList.countP (fun prob => hasNonemptyQueue sys name prob))).sum
/-- Embeds `ICPCSystem::scroll` (state part): fails when not frozen; otherwise
flushes silently, drains the hidden queues and clears the frozen flag.
The loop terminates within `teams * problems` steps (proved below), so the
fuel makes `runSteps` reach the loop's exit. -/
def scroll (sys : ICPCSystem) : ICPCSystem :=
  if !sys.frozen then sys
  else
    let sys1 := { sys with lastRanking := calculateRanking sys }
    let sys2 := runSteps (sys1.teamNames.length * sys1.problemList.length) sys1
    { sys2 with frozen := false }
/-! ### Reachable states -/

/-- States reachable from the fresh system by the engine's operations
(queries are read-only and cannot change the state). -/
inductive Reachable : ICPCSystem → Prop where
  | init : Reachable initState
  | addTeam {sys} (name : String) : Reachable sys → Reachable (addTeam sys name)
  | start {sys} (duration problems : Nat) : Reachable sys →
      Reachable (start sys duration problems)
  | submit {sys} (problem teamName status : String) (time : Nat) :
      Reachable sys → Reachable (submit sys problem teamName status time)
  | flush {sys} : Reachable sys → Reachable (flush sys)
  | freeze {sys} : Reachable sys → Reachable (freeze sys)
  | scroll {sys} : Reachable sys → Reachable (scroll sys)


/-- The four freeze-visible fields of a team-problem state (`none` when the
team or the problem entry is absent). -/
def visibleOf (sys : ICPCSystem) (name prob : String) : Option (Bool × Nat × Nat × Bool) :=
  match getEntry sys.teams name with
  | some t =>
    match getEntry t.problems prob with
    | some ps => some (ps.solved, ps.solveTime, ps.wrongAttempts, ps.wasSolvedBeforeFreeze)
    | none => none
  | none => none

/-- The invariant of claim C9: `solved` and `wasSolvedBeforeFreeze` agree in
every stored `ProblemStatus`. -/
def solvedFlagInv (sys : ICPCSystem) : Prop :=
  ∀ e ∈ sys.teams, ∀ q ∈ (e.2 : Team).problems,
    (q.2 : ProblemStatus).solved = q.2.wasSolvedBeforeFreeze

/-! Concrete contest runs used by the witnesses. -/

/-- Before the freeze: "alice" solves "A" (one wrong try), "bob" solves "B". -/
def wPre : ICPCSystem :=
  submit (submit (submit (start (addTeam (addTeam initState "bob") "alice") 300 2)
    "A" "alice" "Wrong" 10) "A" "alice" "Accepted" 20) "B" "bob" "Accepted" 15

/-- Frozen, with two hidden submissions by "bob" on "A". -/
def wFrozen : ICPCSystem :=
  submit (submit (freeze wPre) "A" "bob" "Wrong" 100) "A" "bob" "Accepted" 120

/-- A further hidden submission; differs from `wFrozen` only in a queue. -/
def wFrozen2 : ICPCSystem := submit wFrozen "A" "bob" "Wrong" 130

/-- The frozen contest with the ranking snapshot cached (scroll's state at
the top of its loop). -/
def wScroll : ICPCSystem := flush wFrozen

/-- The state after the single reveal step on `wScroll`. -/
def wRevealed : ICPCSystem := revealAt wScroll "bob" "A"

/-- The reveal step the scroll loop performs on `wScroll`. -/
def wStepRes : ScrollStepResult :=
  { sys := { wRevealed with lastRanking := calculateRanking wRevealed }
    team := "bob", prob := "A", oldRank := 1, newRank := 1, note := none }

/-- An unregistered team submitting mid-contest. -/
def wGhost : ICPCSystem := submit wPre "A" "ghost" "Accepted" 5

/-! ### Theorems -/

theorem lexLt_irrefl {α : Type} [LinearOrder α] (l : List α) : lexLt l l = false := by
  induction l with
  | nil => rfl
  | cons a as ih => simp [lexLt, ih]
theorem lexLt_asymm {α : Type} [LinearOrder α] {a b : List α}
    (h : lexLt a b = true) : lexLt b a = false := by
  induction a generalizing b with
  | nil =>
    cases b with
    | nil => simpa [lexLt] using h
    | cons y ys => rfl
  | cons x xs ih =>
    cases b with
    | nil => simp [lexLt] at h
    | cons y ys =>
      by_cases hxy : x < y
      · have hyx : ¬ y < x := lt_asymm hxy
        simp [lexLt, hxy, hyx]
      · by_cases hyx : y < x
        · simp [lexLt, hxy, hyx] at h
        · simp [lexLt, hxy, hyx] at h ⊢
          exact ih h
theorem lexLt_ne {α : Type} [LinearOrder α] {a b : List α}
    (h : lexLt a b = true) : a ≠ b := by
  intro hab
  rw [hab, lexLt_irrefl] at h
  exact Bool.false_ne_true h
theorem lexLt_trans {α : Type} [LinearOrder α] {a b c : List α}
    (hab : lexLt a b = true) (hbc : lexLt b c = true) : lexLt a c = true := by
  induction a generalizing b c with
  | nil =>
    cases c with
    | nil =>
      cases b with
      | nil => simpa [lexLt] using hab
      | cons y ys => simp [lexLt] at hbc
    | cons z zs => rfl
  | cons x xs ih =>
    cases b with
    | nil => simp [lexLt] at hab
    | cons y ys =>
      cases c with
      | nil => simp [lexLt] at hbc
      | cons z zs =>
        by_cases hxy : x < y
        · by_cases hyz : y < z
          · simp [lexLt, lt_trans hxy hyz]
          · by_cases hzy : z < y
            · simp [lexLt, hyz, hzy] at hbc
            · have hyz' : y = z := le_antisymm (le_of_not_lt hzy) (le_of_not_lt hyz)
              simp [lexLt, hyz' ▸ hxy]
        · by_cases hyx : y < x
          · simp [lexLt, hxy, hyx] at hab
          · have hxy' : x = y := le_antisymm (le_of_not_lt hyx) (le_of_not_lt hxy)
            simp [lexLt, hxy, hyx] at hab
            by_cases hyz : y < z
            · subst hxy'
              simp [lexLt, hyz]
            · by_cases hzy : z < y
              · simp [lexLt, hyz, hzy] at hbc
              · simp [lexLt, hyz, hzy] at hbc
                subst hxy'
                simp [lexLt, hyz, hzy]
                exact ih hab hbc
theorem lexLt_total {α : Type} [LinearOrder α] {a b : List α}
    (h : a ≠ b) : lexLt a b = true ∨ lexLt b a = true := by
  induction a generalizing b with
  | nil =>
    cases b with
    | nil => exact absurd rfl h
    | cons y ys => left; rfl
  | cons x xs ih =>
    cases b with
    | nil => right; rfl
    | cons y ys =>
      by_cases hxy : x < y
      · left; simp [lexLt, hxy]
      · by_cases hyx : y < x
        · right; simp [lexLt, hyx]
        · have hxy' : x = y := le_antisymm (le_of_not_lt hyx) (le_of_not_lt hxy)
          subst hxy'
          have hxs : xs ≠ ys := by
            intro hh; exact h (by rw [hh])
          rcases ih hxs with h1 | h1
          · left; simpa [lexLt, hyx] using h1
          · right; simpa [lexLt, hyx] using h1
theorem String.toList_injective : Function.Injective String.toList := by
  intro a b h
  cases a; cases b
  exact congrArg String.mk (by simpa [String.toList] using h)
theorem strLt_irrefl (a : String) : strLt a a = false := lexLt_irrefl _
theorem strLt_asymm {a b : String} (h : strLt a b = true) : strLt b a = false :=
  lexLt_asymm h
theorem strLt_trans {a b c : String} (hab : strLt a b = true)
    (hbc : strLt b c = true) : strLt a c = true := lexLt_trans hab hbc
theorem strLt_total {a b : String} (h : a ≠ b) :
    strLt a b = true ∨ strLt b a = true :=
  lexLt_total (fun hl => h (String.toList_injective hl))
theorem insertBy_perm {α : Type} (lt : α → α → Bool) (x : α) (l : List α) :
    (insertBy lt x l).Perm (x :: l) := by
  induction l with
  | nil => exact List.Perm.refl _
  | cons y ys ih =>
    cases hxy : lt x y with
    | true => simp [insertBy, hxy]
    | false =>
      simp only [insertBy, hxy, Bool.false_eq_true, if_false]
      exact (ih.cons y).trans (List.Perm.swap x y ys)
theorem sortBy_perm {α : Type} (lt : α → α → Bool) (l : List α) :
    (sortBy lt l).Perm l := by
  induction l with
  | nil => exact List.Perm.refl _
  | cons x xs ih =>
    exact (insertBy_perm lt x (sortBy lt xs)).trans (ih.cons x)
theorem mem_insertBy {α : Type} {lt : α → α → Bool} {x z : α} {l : List α}
    (h : z ∈ insertBy lt x l) : z = x ∨ z ∈ l := by
  have := (insertBy_perm lt x l).mem_iff.mp h
  simpa using this
theorem insertBy_pairwise {α : Type} {lt : α → α → Bool}
    (hasym : ∀ a b, lt a b = true → lt b a = false)
    (htrans : ∀ a b c, lt a b = true → lt b c = true → lt a c = true)
    {x : α} {l : List α}
    (hl : l.Pairwise (fun a b => lt b a = false)) :
    (insertBy lt x l).Pairwise (fun a b => lt b a = false) := by
  induction l with
  | nil => simp [insertBy]
  | cons y ys ih =>
    rcases List.pairwise_cons.mp hl with ⟨hy, hys⟩
    cases h : lt x y with
    | true =>
      simp only [insertBy, h, if_true]
      refine List.pairwise_cons.mpr ⟨?_, hl⟩
      intro z hz
      rcases List.mem_cons.mp hz with rfl | hz
      · exact hasym _ _ h
      · -- z ∈ ys; if z beat x then z would beat y, contradicting hy
        cases hzx : lt z x with
        | false => rfl
        | true => exact absurd (htrans _ _ _ hzx h) (by simp [hy z hz])
    | false =>
      simp only [insertBy, h, Bool.false_eq_true, if_false]
      refine List.pairwise_cons.mpr ⟨?_, ih hys⟩
      intro z hz
      rcases mem_insertBy hz with rfl | hz
      · exact h
      · exact hy z hz
theorem sortBy_pairwise {α : Type} (lt : α → α → Bool)
    (hasym : ∀ a b, lt a b = true → lt b a = false)
    (htrans : ∀ a b c, lt a b = true → lt b c = true → lt a c = true)
    (l : List α) :
    (sortBy lt l).Pairwise (fun a b => lt b a = false) := by
  induction l with
  | nil => simp [sortBy]
  | cons x xs ih => exact insertBy_pairwise hasym htrans ih
theorem posOf_eq_none {α : Type} {p : α → Bool} {l : List α}
    (h : ∀ a ∈ l, p a = false) : posOf p l = none := by
  induction l with
  | nil => rfl
  | cons a l ih =>
    simp only [posOf, h a (by simp), Bool.false_eq_true, if_false]
    rw [ih (fun b hb => h b (by simp [hb]))]
    rfl
theorem posOf_some_mem {α : Type} {p : α → Bool} {l : List α} {i : Nat}
    (h : posOf p l = some i) : ∃ a ∈ l, p a = true := by
  induction l generalizing i with
  | nil => simp [posOf] at h
  | cons a as ih =>
    by_cases ha : p a = true
    · exact ⟨a, by simp, ha⟩
    · simp only [posOf, ha, Bool.false_eq_true, if_false, Option.map_eq_some'] at h
      rcases h with ⟨j, hj, _⟩
      rcases ih hj with ⟨b, hb, hpb⟩
      exact ⟨b, by simp [hb], hpb⟩
/-- In a list sorted by a comparator that is irreflexive and total on its
elements, the 0-based position of an element equals the number of elements
beating it. -/
theorem sorted_posOf_eq_countP {α : Type} [DecidableEq α]
    (lt : α → α → Bool) {s : List α} {x : α}
    (hirr : ∀ a, lt a a = false)
    (hsorted : s.Pairwise (fun a b => lt b a = false))
    (htotal : s.Pairwise (fun a b => a ≠ b → (lt a b = true ∨ lt b a = true)))
    (hnd : s.Nodup) (hx : x ∈ s) :
    posOf (fun y => decide (y = x)) s = some (s.countP (fun y => lt y x)) := by
  induction s with
  | nil => cases hx
  | cons y ys ih =>
    rcases List.pairwise_cons.mp hsorted with ⟨hy, hys⟩
    rcases List.pairwise_cons.mp htotal with ⟨hty, htys⟩
    rcases List.nodup_cons.mp hnd with ⟨hny, hnys⟩
    by_cases hxy : y = x
    · subst hxy
      have hcount : ys.countP (fun z => lt z y) = 0 := by
        apply List.countP_eq_zero.mpr
        intro z hz
        simpa using hy z hz
      simp [posOf, List.countP_cons, hirr y, hcount]
    · have hxys : x ∈ ys := by
        rcases List.mem_cons.mp hx with h | h
        · exact absurd h.symm hxy
        · exact h
      have hyx : lt y x = true := by
        rcases hty x hxys (fun h => hxy h) with h | h
        · exact h
        · exact absurd h (by simp [hy x hxys])
      simp only [posOf, decide_eq_true_eq, hxy, Bool.false_eq_true, if_false,
        decide_eq_false_iff_not]
      rw [ih hys htys hnys hxys]
      simp [List.countP_cons, hyx]
theorem getEntry_setEntry_self {β : Type} (m : List (String × β)) (k : String) (v : β) :
    getEntry (setEntry m k v) k = some v := by
  induction m with
  | nil => simp [setEntry, getEntry]
  | cons p rest ih =>
    rcases p with ⟨k', v'⟩
    by_cases h : k' = k
    · simp [setEntry, h, getEntry]
    · simp only [setEntry, if_neg h, getEntry, if_neg h]
      exact ih
theorem getEntry_setEntry_ne {β : Type} (m : List (String × β)) (k k' : String) (v : β)
    (h : k' ≠ k) : getEntry (setEntry m k v) k' = getEntry m k' := by
  induction m with
  | nil =>
    simp only [setEntry, getEntry]
    rw [if_neg (fun hh : k = k' => h hh.symm)]
  | cons p rest ih =>
    rcases p with ⟨k0, v0⟩
    by_cases hp : k0 = k
    · subst hp
      simp only [setEntry, if_pos rfl, getEntry]
      rw [if_neg (fun hh : k0 = k' => h hh.symm), if_neg (fun hh : k0 = k' => h hh.symm)]
    · simp only [setEntry, if_neg hp, getEntry]
      by_cases hk : k0 = k'
      · simp [hk]
      · rw [if_neg hk, if_neg hk]
        exact ih
/-! ### Properties of the ranking comparator -/

theorem rankBetter_irrefl (a : TeamRankInfo) : rankBetter a a = false := by
  simp [rankBetter, strLt_irrefl]
/-- Unfolding of the comparator into its four decision levels. -/
theorem rankBetter_iff {a b : TeamRankInfo} : rankBetter a b = true ↔
    (b.solved < a.solved
     ∨ (a.solved = b.solved ∧ a.penalty < b.penalty)
     ∨ (a.solved = b.solved ∧ a.penalty = b.penalty ∧ a.times ≠ b.times ∧
        lexLt a.times b.times = true)
     ∨ (a.solved = b.solved ∧ a.penalty = b.penalty ∧ a.times = b.times ∧
        strLt a.name b.name = true)) := by
  unfold rankBetter
  by_cases h1 : a.solved = b.solved
  · by_cases h2 : a.penalty = b.penalty
    · by_cases h3 : a.times = b.times
      · simp [h1, h2, h3]
      · simp [h1, h2, h3]
    · simp [h1, h2]
  · simp [h1]
theorem rankBetter_asymm {a b : TeamRankInfo} (h : rankBetter a b = true) :
    rankBetter b a = false := by
  rcases rankBetter_iff.mp h with h1 | ⟨e1, h2⟩ | ⟨e1, e2, hne, h3⟩ | ⟨e1, e2, e3, h4⟩
  · cases hba : rankBetter b a with
    | false => rfl
    | true =>
      rcases rankBetter_iff.mp hba with g | ⟨f1, g⟩ | ⟨f1, g⟩ | ⟨f1, g⟩ <;> omega
  · cases hba : rankBetter b a with
    | false => rfl
    | true =>
      rcases rankBetter_iff.mp hba with g | ⟨f1, g⟩ | ⟨f1, f2, g⟩ | ⟨f1, f2, g⟩ <;> omega
  · cases hba : rankBetter b a with
    | false => rfl
    | true =>
      rcases rankBetter_iff.mp hba with g | ⟨f1, g⟩ | ⟨f1, f2, g, hlex⟩ | ⟨f1, f2, f3, g⟩
      · omega
      · omega
      · exact absurd hlex (by simp [lexLt_asymm h3])
      · exact absurd f3.symm hne
  · cases hba : rankBetter b a with
    | false => rfl
    | true =>
      rcases rankBetter_iff.mp hba with g | ⟨f1, g⟩ | ⟨f1, f2, f3, g⟩ | ⟨f1, f2, f3, g⟩
      · omega
      · omega
      · exact absurd e3.symm f3
      · exact absurd g (by simp [strLt_asymm h4])
theorem rankBetter_trans {a b c : TeamRankInfo} (hab : rankBetter a b = true)
    (hbc : rankBetter b c = true) : rankBetter a c = true := by
  apply rankBetter_iff.mpr
  rcases rankBetter_iff.mp hab with h1 | ⟨e1, h2⟩ | ⟨e1, e2, hne, h3⟩ | ⟨e1, e2, e3, h4⟩ <;>
    rcases rankBetter_iff.mp hbc with g1 | ⟨f1, g2⟩ | ⟨f1, f2, gne, g3⟩ | ⟨f1, f2, f3, g4⟩
  · exact Or.inl (by omega)
  · exact Or.inl (by omega)
  · exact Or.inl (by omega)
  · exact Or.inl (by omega)
  · exact Or.inl (by omega)
  · exact Or.inr (Or.inl (by omega))
  · exact Or.inr (Or.inl (by omega))
  · exact Or.inr (Or.inl (by omega))
  · exact Or.inl (by omega)
  · exact Or.inr (Or.inl (by omega))
  · exact Or.inr (Or.inr (Or.inl ⟨by omega, by omega,
      fun hh => (lexLt_ne (lexLt_trans h3 g3)) hh, lexLt_trans h3 g3⟩))
  · exact Or.inr (Or.inr (Or.inl ⟨by omega, by omega, f3 ▸ hne, f3 ▸ h3⟩))
  · exact Or.inl (by omega)
  · exact Or.inr (Or.inl (by omega))
  · exact Or.inr (Or.inr (Or.inl ⟨by omega, by omega, e3 ▸ gne, e3 ▸ g3⟩))
  · exact Or.inr (Or.inr (Or.inr ⟨by omega, by omega, e3.trans f3, strLt_trans h4 g4⟩))
theorem rankBetter_total {a b : TeamRankInfo} (h : a.name ≠ b.name) :
    rankBetter a b = true ∨ rankBetter b a = true := by
  by_cases h1 : a.solved = b.solved
  · by_cases h2 : a.penalty = b.penalty
    · by_cases h3 : a.times = b.times
      · rcases strLt_total h with h4 | h4
        · exact Or.inl (rankBetter_iff.mpr (Or.inr (Or.inr (Or.inr ⟨h1, h2, h3, h4⟩))))
        · exact Or.inr (rankBetter_iff.mpr (Or.inr (Or.inr (Or.inr
            ⟨h1.symm, h2.symm, h3.symm, h4⟩))))
      · rcases lexLt_total h3 with h4 | h4
        · exact Or.inl (rankBetter_iff.mpr (Or.inr (Or.inr (Or.inl ⟨h1, h2, h3, h4⟩))))
        · exact Or.inr (rankBetter_iff.mpr (Or.inr (Or.inr (Or.inl
            ⟨h1.symm, h2.symm, fun hh => h3 hh.symm, h4⟩))))
    · rcases Nat.lt_or_ge a.penalty b.penalty with h4 | h4
      · exact Or.inl (rankBetter_iff.mpr (Or.inr (Or.inl ⟨h1, h4⟩)))
      · exact Or.inr (rankBetter_iff.mpr (Or.inr (Or.inl ⟨h1.symm, by omega⟩)))
  · rcases Nat.lt_or_ge a.solved b.solved with h4 | h4
    · exact Or.inr (rankBetter_iff.mpr (Or.inl h4))
    · exact Or.inl (rankBetter_iff.mpr (Or.inl (by omega)))
/-! ### Characterization of `calculateRanking` -/

theorem assignRanks_map_fst (k : Nat) (s : List TeamRankInfo) :
    (assignRanks k s).map Prod.fst = s.map (fun i => i.name) := by
  induction s generalizing k with
  | nil => rfl
  | cons x xs ih => simp [assignRanks, ih]
theorem assignRanks_map_snd (k : Nat) (s : List TeamRankInfo) :
    (assignRanks k s).map Prod.snd = List.range' (k + 1) s.length := by
  induction s generalizing k with
  | nil => rfl
  | cons x xs ih => simp [assignRanks, List.range'_succ, ih]
/-- The ranking lists the sorted teams' names. -/
theorem calculateRanking_map_fst (sys : ICPCSystem) :
    ((calculateRanking sys).map Prod.fst).Perm sys.teamNames := by
  unfold calculateRanking
  rw [assignRanks_map_fst]
  have h1 := (sortBy_perm rankBetter (sys.teamNames.map (getTeamRankInfo sys))).map
    (fun i => i.name)
  apply h1.trans
  rw [List.map_map]
  have : ((fun i : TeamRankInfo => i.name) ∘ getTeamRankInfo sys) = id := by
    funext tn
    rfl
  rw [this, List.map_id]
/-- The assigned ranks are exactly `1, 2, ..., n`. -/
theorem calculateRanking_map_snd (sys : ICPCSystem) :
    (calculateRanking sys).map Prod.snd = List.range' 1 sys.teamNames.length := by
  unfold calculateRanking
  rw [assignRanks_map_snd]
  congr 1
  exact (sortBy_perm rankBetter _).length_eq.trans (by simp)
theorem calculateRanking_rank_pos (sys : ICPCSystem) {p : String × Nat}
    (hp : p ∈ calculateRanking sys) : 1 ≤ p.2 ∧ p.2 ≤ sys.teamNames.length := by
  have hmem : p.2 ∈ (calculateRanking sys).map Prod.snd := List.mem_map_of_mem _ hp
  rw [calculateRanking_map_snd] at hmem
  rcases List.mem_range'.mp hmem with ⟨i, hi, he⟩
  omega
/-- Looking up a name in the assigned ranks gives `k +` its 0-based sorted
position `+ 1` (names must be distinct for the scan to stop at it). -/
theorem rankOf_assignRanks {k i : Nat} {s : List TeamRankInfo} {x : TeamRankInfo}
    (hnd : (s.map (fun y => y.name)).Nodup)
    (hpos : posOf (fun y => decide (y = x)) s = some i) :
    rankOf (assignRanks k s) x.name = k + i + 1 := by
  induction s generalizing k i with
  | nil => simp [posOf] at hpos
  | cons y ys ih =>
    have hnd' : (y.name :: ys.map (fun z => z.name)).Nodup := by simpa using hnd
    rcases List.nodup_cons.mp hnd' with ⟨hny, hnys⟩
    by_cases hxy : y = x
    · have hi : i = 0 := by
        simp [posOf, hxy] at hpos
        omega
      subst hi
      simp only [rankOf, assignRanks]
      rw [List.find?_cons_of_pos _ (by simp [hxy])]
    · have hstep : posOf (fun z => decide (z = x)) (y :: ys) =
          (posOf (fun z => decide (z = x)) ys).map (fun n => n + 1) := by
        simp [posOf, hxy]
      rw [hstep] at hpos
      have hrec : ∃ j, posOf (fun z => decide (z = x)) ys = some j ∧ i = j + 1 := by
        cases hp : posOf (fun z => decide (z = x)) ys with
        | none => rw [hp] at hpos; simp at hpos
        | some j =>
          rw [hp] at hpos
          simp only [Option.map_some', Option.some.injEq] at hpos
          exact ⟨j, rfl, hpos.symm⟩
      rcases hrec with ⟨j, hj, hij⟩
      have hxys : x ∈ ys := by
        rcases posOf_some_mem hj with ⟨b, hb, hpb⟩
        have hbx : b = x := by simpa using hpb
        exact hbx ▸ hb
      have hxname : y.name ≠ x.name := by
        intro hh
        exact hny (hh ▸ List.mem_map_of_mem _ hxys)
      subst hij
      have hres := ih (k := k + 1) hnys hj
      simp only [rankOf, assignRanks] at hres ⊢
      rw [List.find?_cons_of_neg _ (by simp [fun hh : y.name = x.name => hxname hh])]
      rw [show k + (j + 1) + 1 = (k + 1) + j + 1 by omega]
      exact hres
/-- A ranking entry's number is what `rankOf` finds for its team. -/
theorem rankOf_of_mem_assignRanks {k : Nat} {s : List TeamRankInfo}
    {nm : String} {r : Nat}
    (hnd : (s.map (fun y => y.name)).Nodup)
    (hmem : (nm, r) ∈ assignRanks k s) :
    rankOf (assignRanks k s) nm = r := by
  induction s generalizing k with
  | nil => simp [assignRanks] at hmem
  | cons y ys ih =>
    have hnd' : (y.name :: ys.map (fun z => z.name)).Nodup := by simpa using hnd
    rcases List.nodup_cons.mp hnd' with ⟨hny, hnys⟩
    simp only [assignRanks, List.mem_cons] at hmem
    rcases hmem with hmem | hmem
    · rw [Prod.mk.injEq] at hmem
      simp only [rankOf, assignRanks]
      rw [List.find?_cons_of_pos _ (by simp [hmem.1.symm])]
      exact hmem.2.symm
    · have hname : y.name ≠ nm := by
        intro hh
        refine hny ?_
        have h1 : nm ∈ (assignRanks (k + 1) ys).map Prod.fst :=
          List.mem_map_of_mem _ hmem
        rw [assignRanks_map_fst] at h1
        exact hh ▸ h1
      have hres := ih (k := k + 1) hnys hmem
      simp only [rankOf, assignRanks] at hres ⊢
      rw [List.find?_cons_of_neg _ (by simp [fun hh : y.name = nm => hname hh])]
      exact hres
/-- The names attached to the registered teams' infos are the registered
names themselves. -/
theorem infos_map_name (sys : ICPCSystem) :
    ((sys.teamNames.map (getTeamRankInfo sys)).map (fun y => y.name)) = sys.teamNames := by
  rw [List.map_map]
  have : ((fun y : TeamRankInfo => y.name) ∘ getTeamRankInfo sys) = id := by
    funext tn
    rfl
  rw [this, List.map_id]
/-- Central characterization: a registered team's rank is one plus the
number of registered teams whose info compares better. -/
theorem rankOf_calculateRanking (sys : ICPCSystem)
    (hnd : sys.teamNames.Nodup) {name : String} (hmem : name ∈ sys.teamNames) :
    rankOf (calculateRanking sys) name =
      1 + (sys.teamNames.map (getTeamRankInfo sys)).countP
            (fun y => rankBetter y (getTeamRankInfo sys name)) := by
  set infos := sys.teamNames.map (getTeamRankInfo sys) with hinfos
  set s := sortBy rankBetter infos with hs
  have hperm : s.Perm infos := sortBy_perm _ _
  have hnames : (s.map (fun y => y.name)).Nodup := by
    refine (hperm.map (fun y => y.name)).nodup_iff.mpr ?_
    rw [hinfos, infos_map_name]
    exact hnd
  have hsnd : s.Nodup := hnames.of_map
  have hx : getTeamRankInfo sys name ∈ s :=
    hperm.mem_iff.mpr (List.mem_map_of_mem _ hmem)
  have htotal : s.Pairwise (fun a b => a ≠ b →
      (rankBetter a b = true ∨ rankBetter b a = true)) := by
    have hnp : s.Pairwise (fun a b => a.name ≠ b.name) := by
      rw [List.Nodup, List.pairwise_map] at hnames
      exact hnames
    refine hnp.imp ?_
    intro a b hab hne
    exact rankBetter_total hab
  have hsorted : s.Pairwise (fun a b => rankBetter b a = false) :=
    sortBy_pairwise rankBetter (fun a b h => rankBetter_asymm h)
      (fun a b c hab hbc => rankBetter_trans hab hbc) infos
  have hpos := sorted_posOf_eq_countP rankBetter rankBetter_irrefl
    hsorted htotal hsnd hx
  have hmain := rankOf_assignRanks (k := 0) hnames hpos
  unfold calculateRanking
  rw [← hinfos, ← hs]
  have hname : (getTeamRankInfo sys name).name = name := rfl
  rw [hname] at hmain
  rw [hmain, hperm.countP_eq]
  omega

/-! ### Association-list and replay helper lemmas -/

theorem getEntry_mem {β : Type} {m : List (String × β)} {k : String} {v : β}
    (h : getEntry m k = some v) : (k, v) ∈ m := by
  induction m with
  | nil => simp [getEntry] at h
  | cons p rest ih =>
    rcases p with ⟨k0, v0⟩
    by_cases hk : k0 = k
    · subst hk
      have hv : v0 = v := by simpa [getEntry] using h
      subst hv
      exact List.mem_cons_self _ _
    · simp only [getEntry, if_neg hk] at h
      exact List.mem_cons_of_mem _ (ih h)

theorem mem_setEntry {β : Type} {m : List (String × β)} {k : String} {v : β}
    {e : String × β} (h : e ∈ setEntry m k v) : e = (k, v) ∨ e ∈ m := by
  induction m with
  | nil => simpa [setEntry] using h
  | cons p rest ih =>
    rcases p with ⟨k0, v0⟩
    by_cases hk : k0 = k
    · subst hk
      simp only [setEntry, if_pos rfl] at h
      rcases List.mem_cons.mp h with h1 | h1
      · exact Or.inl h1
      · exact Or.inr (List.mem_cons_of_mem _ h1)
    · simp only [setEntry, if_neg hk] at h
      rcases List.mem_cons.mp h with h1 | h1
      · exact Or.inr (h1 ▸ List.mem_cons_self _ _)
      · rcases ih h1 with h2 | h2
        · exact Or.inl h2
        · exact Or.inr (List.mem_cons_of_mem _ h2)

/-- The scroll replay rule is exactly the normal (unfrozen) submit rule. -/
theorem replaySub_eq_applySubmit (ps : ProblemStatus) (sub : Submission) :
    replaySub ps sub = applySubmit ps sub.status sub.time := by
  unfold replaySub applySubmit
  by_cases hs : ps.solved = true
  · simp [hs]
  · by_cases ha : sub.status = "Accepted"
    · simp [hs, ha]
    · simp [hs, ha]

/-- A submission applied to an already-solved problem has no effect. -/
theorem applySubmit_solved {ps : ProblemStatus} (h : ps.solved = true)
    (status : String) (time : Nat) : applySubmit ps status time = ps := by
  simp [applySubmit, h]

theorem foldl_replaySub_solved {ps : ProblemStatus} (h : ps.solved = true)
    (l : List Submission) : l.foldl replaySub ps = ps := by
  induction l with
  | nil => rfl
  | cons sub rest ih =>
    have : replaySub ps sub = ps := by
      rw [replaySub_eq_applySubmit, applySubmit_solved h]
    simp only [List.foldl_cons, this]
    exact ih

theorem replaySub_flagInv {ps : ProblemStatus} (sub : Submission)
    (h : ps.solved = ps.wasSolvedBeforeFreeze) :
    (replaySub ps sub).solved = (replaySub ps sub).wasSolvedBeforeFreeze := by
  unfold replaySub
  by_cases hs : ps.solved = true
  · simp [hs, ← h]
  · have hsf : ps.solved = false := by
      cases hps : ps.solved
      · rfl
      · exact absurd hps hs
    by_cases ha : sub.status = "Accepted"
    · simp [hs, ha]
    · simp [hs, ha, hsf, ← h]

theorem foldl_replaySub_flagInv {ps : ProblemStatus}
    (h : ps.solved = ps.wasSolvedBeforeFreeze) (l : List Submission) :
    (l.foldl replaySub ps).solved = (l.foldl replaySub ps).wasSolvedBeforeFreeze := by
  induction l generalizing ps with
  | nil => exact h
  | cons sub rest ih => exact ih (replaySub_flagInv sub h)

theorem replaySub_solvedImp {ps : ProblemStatus} (sub : Submission)
    (h : ps.solved = true → ps.wasSolvedBeforeFreeze = true) :
    (replaySub ps sub).solved = true → (replaySub ps sub).wasSolvedBeforeFreeze = true := by
  unfold replaySub
  by_cases hs : ps.solved = true
  · simp [hs, h hs]
  · by_cases ha : sub.status = "Accepted"
    · simp [hs, ha]
    · simp [hs, ha, h]

theorem foldl_replaySub_solvedImp {ps : ProblemStatus}
    (h : ps.solved = true → ps.wasSolvedBeforeFreeze = true) (l : List Submission) :
    (l.foldl replaySub ps).solved = true →
      (l.foldl replaySub ps).wasSolvedBeforeFreeze = true := by
  induction l generalizing ps with
  | nil => exact h
  | cons sub rest ih => exact ih (replaySub_solvedImp sub h)

theorem applySubmit_flagInv {ps : ProblemStatus} (status : String) (time : Nat)
    (h : ps.solved = ps.wasSolvedBeforeFreeze) :
    (applySubmit ps status time).solved = (applySubmit ps status time).wasSolvedBeforeFreeze := by
  unfold applySubmit
  by_cases hs : ps.solved = true
  · simp [hs, ← h]
  · have hsf : ps.solved = false := by
      cases hps : ps.solved
      · rfl
      · exact absurd hps hs
    by_cases ha : status = "Accepted"
    · simp [hs, ha]
    · simp [hs, ha, hsf, ← h]

/-! ### Counting and congruence helper lemmas -/

/-- The team info only depends on which problems count and on the counted
problems' penalty and time contributions. -/
theorem getTeamRankInfo_congr {sys sys' : ICPCSystem} (tn : String)
    (hpl : sys.problemList = sys'.problemList)
    (hc : ∀ p ∈ sys.problemList,
        countsSolved (teamOf sys tn) p = countsSolved (teamOf sys' tn) p)
    (hp : ∀ p ∈ sys.problemList, countsSolved (teamOf sys tn) p = true →
        probPenalty (teamOf sys tn) p = probPenalty (teamOf sys' tn) p ∧
        probTime (teamOf sys tn) p = probTime (teamOf sys' tn) p) :
    getTeamRankInfo sys tn = getTeamRankInfo sys' tn := by
  have hfil : List.filter (fun p => countsSolved (teamOf sys tn) p) sys.problemList
      = List.filter (fun p => countsSolved (teamOf sys' tn) p) sys'.problemList := by
    rw [← hpl]
    exact List.filter_congr hc
  have hmem : ∀ p ∈ List.filter (fun p => countsSolved (teamOf sys tn) p) sys.problemList,
      probPenalty (teamOf sys tn) p = probPenalty (teamOf sys' tn) p ∧
      probTime (teamOf sys tn) p = probTime (teamOf sys' tn) p := by
    intro p hpf
    have hm := List.mem_filter.mp hpf
    exact hp p hm.1 hm.2
  simp only [getTeamRankInfo]
  congr 1
  · rw [hfil]
  · rw [← hfil]
    exact congrArg List.sum (List.map_congr_left (fun p hpf => (hmem p hpf).1))
  · rw [← hfil]
    exact congrArg sortDesc (List.map_congr_left (fun p hpf => (hmem p hpf).2))

/-- Flipping one predicate value from `false` to `true` at one element of a
duplicate-free list grows the filter by exactly one element. -/
theorem filter_length_flip {α : Type} {l : List α} {p q : α → Bool} {a : α}
    (hnd : l.Nodup) (ha : a ∈ l) (hpa : p a = false) (hqa : q a = true)
    (hagree : ∀ x ∈ l, x ≠ a → q x = p x) :
    (l.filter q).length = (l.filter p).length + 1 := by
  induction l with
  | nil => cases ha
  | cons b bs ih =>
    rcases List.nodup_cons.mp hnd with ⟨hb, hbs⟩
    by_cases hba : b = a
    · subst hba
      have hfil : bs.filter q = bs.filter p :=
        List.filter_congr (fun x hx => hagree x (List.mem_cons_of_mem _ hx)
          (fun hxa => hb (hxa ▸ hx)))
      simp [List.filter_cons, hpa, hqa, hfil]
    · have habs : a ∈ bs := by
        rcases List.mem_cons.mp ha with h | h
        · exact absurd h.symm hba
        · exact h
      have hq : q b = p b := hagree b (List.mem_cons_self _ _) hba
      have hrec := ih hbs habs
        (fun x hx hxa => hagree x (List.mem_cons_of_mem _ hx) hxa)
      cases hpb : p b with
      | true => simp [List.filter_cons, hq, hpb, hrec]
      | false => simp [List.filter_cons, hq, hpb, hrec]

/-- Dropping one unit of one summand of a mapped sum over a duplicate-free
list drops the sum by one. -/
theorem sum_map_flip {l : List String} {f g : String → Nat} {a : String}
    (hnd : l.Nodup) (ha : a ∈ l) (hfa : g a + 1 = f a)
    (hagree : ∀ x ∈ l, x ≠ a → g x = f x) :
    (l.map g).sum + 1 = (l.map f).sum := by
  induction l with
  | nil => cases ha
  | cons b bs ih =>
    rcases List.nodup_cons.mp hnd with ⟨hb, hbs⟩
    by_cases hba : b = a
    · subst hba
      have hmap : bs.map g = bs.map f :=
        List.map_congr_left (fun x hx => hagree x (List.mem_cons_of_mem _ hx)
          (fun hxa => hb (hxa ▸ hx)))
      simp only [List.map_cons, List.sum_cons, hmap]
      omega
    · have habs : a ∈ bs := by
        rcases List.mem_cons.mp ha with h | h
        · exact absurd h.symm hba
        · exact h
      have hg : g b = f b := hagree b (List.mem_cons_self _ _) hba
      have hrec := ih hbs habs
        (fun x hx hxa => hagree x (List.mem_cons_of_mem _ hx) hxa)
      simp only [List.map_cons, List.sum_cons, hg]
      omega

theorem sum_map_le {α : Type} {l : List α} {f : α → Nat} {c : Nat}
    (h : ∀ x ∈ l, f x ≤ c) : (l.map f).sum ≤ l.length * c := by
  induction l with
  | nil => simp
  | cons b bs ih =>
    simp only [List.map_cons, List.sum_cons, List.length_cons]
    have h1 := h b (List.mem_cons_self _ _)
    have h2 := ih (fun x hx => h x (List.mem_cons_of_mem _ hx))
    calc f b + (bs.map f).sum ≤ c + bs.length * c := by omega
    _ = (bs.length + 1) * c := by ring

/-- If a team's solved count strictly grew while every other team's info is
unchanged, nobody newly outranks it: whoever beats the new info beat the old
one. -/
theorem rankBetter_of_solved_succ {w w' u : TeamRankInfo}
    (hsucc : w'.solved = w.solved + 1)
    (h : rankBetter u w' = true) : rankBetter u w = true := by
  apply rankBetter_iff.mpr
  rcases rankBetter_iff.mp h with h1 | ⟨e1, h2⟩ | ⟨e1, h2⟩ | ⟨e1, h2⟩
  · exact Or.inl (by omega)
  · exact Or.inl (by omega)
  · exact Or.inl (by omega)
  · exact Or.inl (by omega)

/-! ### Selection-scan and reveal-step helper lemmas -/

theorem findLowestAux_spec (sys : ICPCSystem) (l : List (String × Nat))
    (acc : Bool × String × Nat) :
    (findLowestAux sys l acc).1 = (acc.1 || l.any (fun p => teamHasFrozen sys p.1))
    ∧ ((findLowestAux sys l acc).2 = acc.2
       ∨ (((findLowestAux sys l acc).2.1, (findLowestAux sys l acc).2.2) ∈ l
          ∧ teamHasFrozen sys (findLowestAux sys l acc).2.1 = true))
    ∧ (∀ p ∈ l, teamHasFrozen sys p.1 = true → p.2 ≤ (findLowestAux sys l acc).2.2)
    ∧ acc.2.2 ≤ (findLowestAux sys l acc).2.2 := by
  induction l generalizing acc with
  | nil => simp [findLowestAux]
  | cons p rest ih =>
    rcases p with ⟨tm, rk⟩
    simp only [findLowestAux]
    by_cases hf : teamHasFrozen sys tm = true
    · rw [if_pos (by simpa using hf)]
      by_cases hgt : rk > acc.2.2
      · rw [if_pos (by simpa using hgt)]
        rcases ih (true, tm, rk) with ⟨i1, i2, i3, i4⟩
        refine ⟨by simp [i1, hf], ?_, ?_, by simp at i4; omega⟩
        · rcases i2 with i2 | i2
          · exact Or.inr ⟨by simp [i2], by simp [i2, hf]⟩
          · exact Or.inr ⟨List.mem_cons_of_mem _ i2.1, i2.2⟩
        · intro q hq hfq
          rcases List.mem_cons.mp hq with hq1 | hq1
          · subst hq1
            simp only at i4
            omega
          · exact i3 q hq1 hfq
      · rw [if_neg (by simpa using hgt)]
        rcases ih (true, acc.2) with ⟨i1, i2, i3, i4⟩
        refine ⟨by simp [i1, hf], ?_, ?_, by simpa using i4⟩
        · rcases i2 with i2 | i2
          · exact Or.inl (by simpa using i2)
          · exact Or.inr ⟨List.mem_cons_of_mem _ i2.1, i2.2⟩
        · intro q hq hfq
          rcases List.mem_cons.mp hq with hq1 | hq1
          · subst hq1
            simp only at i4
            omega
          · exact i3 q hq1 hfq
    · rw [if_neg hf]
      rcases ih acc with ⟨i1, i2, i3, i4⟩
      refine ⟨?_, ?_, ?_, i4⟩
      · rw [i1]
        have : teamHasFrozen sys tm = false := by
          cases hx : teamHasFrozen sys tm
          · rfl
          · exact absurd hx hf
        simp [this]
      · rcases i2 with i2 | i2
        · exact Or.inl i2
        · exact Or.inr ⟨List.mem_cons_of_mem _ i2.1, i2.2⟩
      · intro q hq hfq
        rcases List.mem_cons.mp hq with hq1 | hq1
        · subst hq1
          exact absurd hfq hf
        · exact i3 q hq1 hfq

theorem findLowest_spec (sys : ICPCSystem)
    (hpos : ∀ p ∈ sys.lastRanking, 1 ≤ p.2)
    (h : (findLowest sys).1 = true) :
    ((findLowest sys).2.1, (findLowest sys).2.2) ∈ sys.lastRanking
    ∧ teamHasFrozen sys (findLowest sys).2.1 = true
    ∧ ∀ p ∈ sys.lastRanking, teamHasFrozen sys p.1 = true →
        p.2 ≤ (findLowest sys).2.2 := by
  rcases findLowestAux_spec sys sys.lastRanking (false, "", 0) with ⟨i1, i2, i3, i4⟩
  rw [show findLowest sys = findLowestAux sys sys.lastRanking (false, "", 0) from rfl] at h ⊢
  have hany : sys.lastRanking.any (fun p => teamHasFrozen sys p.1) = true := by
    rw [h] at i1
    simpa using i1.symm
  rcases List.any_eq_true.mp hany with ⟨q, hq, hfq⟩
  have hqle := i3 q hq hfq
  have hq1 := hpos q hq
  rcases i2 with i2 | i2
  · exfalso
    rw [i2] at hqle
    simp only at hqle
    omega
  · exact ⟨i2.1, i2.2, i3⟩

theorem scrollStep_none_iff (sys : ICPCSystem) :
    scrollStep sys = none ↔ (findLowest sys).1 = false := by
  unfold scrollStep
  cases h : (findLowest sys).1 <;> simp [h]

theorem scrollStep_eq_some {sys : ICPCSystem} {r : ScrollStepResult}
    (h : scrollStep sys = some r) :
    (findLowest sys).1 = true
    ∧ r.team = (findLowest sys).2.1
    ∧ r.oldRank = (findLowest sys).2.2
    ∧ r.prob = selectProb sys r.team
    ∧ r.sys = { revealAt sys r.team r.prob with
                lastRanking := calculateRanking (revealAt sys r.team r.prob) }
    ∧ r.newRank = rankOf (calculateRanking (revealAt sys r.team r.prob)) r.team
    ∧ r.note = (if r.newRank < r.oldRank then
        some (r.team,
          (match (calculateRanking (revealAt sys r.team r.prob)).find?
              (fun p => p.2 = r.newRank + 1) with
           | some p => p.1
           | none => ""),
          (getTeamRankInfo r.sys r.team).solved,
          (getTeamRankInfo r.sys r.team).penalty)
      else none) := by
  by_cases hf : (findLowest sys).1 = true
  · simp only [scrollStep, hf, Bool.not_true, Bool.false_eq_true, if_false,
      Option.some.injEq] at h
    subst h
    exact ⟨hf, rfl, rfl, rfl, rfl, rfl, rfl⟩
  · exfalso
    have : scrollStep sys = none := by
      apply (scrollStep_none_iff sys).mpr
      cases hx : (findLowest sys).1
      · rfl
      · exact absurd hx hf
    rw [this] at h
    cases h

/-! ### Effect of one reveal on the stored statuses -/

theorem teamOf_revealAt_ne (sys : ICPCSystem) {name tn : String} (prob : String)
    (h : tn ≠ name) : teamOf (revealAt sys name prob) tn = teamOf sys tn := by
  unfold revealAt teamOf
  simp only
  rw [getEntry_setEntry_ne _ _ _ _ h]

theorem statusOf_revealAt_self (sys : ICPCSystem) (name prob : String) :
    statusOf (revealAt sys name prob) name prob =
      { (statusOf sys name prob).frozenSubs.foldl replaySub (statusOf sys name prob) with
        frozenSubs := [] } := by
  unfold statusOf revealAt teamOf
  simp only
  rw [getEntry_setEntry_self]
  simp only [Option.getD_some]
  rw [getEntry_setEntry_self]
  rfl

theorem statusOf_revealAt_ne (sys : ICPCSystem) {name prob tn p : String}
    (h : tn ≠ name ∨ p ≠ prob) :
    statusOf (revealAt sys name prob) tn p = statusOf sys tn p := by
  by_cases htn : tn = name
  · subst htn
    rcases h with h | h
    · exact absurd rfl h
    · unfold statusOf revealAt teamOf
      simp only
      rw [getEntry_setEntry_self]
      simp only [Option.getD_some]
      rw [getEntry_setEntry_ne _ _ _ _ h]
  · unfold statusOf
    rw [teamOf_revealAt_ne sys prob htn]

theorem hasNonemptyQueue_eq (sys : ICPCSystem) (name prob : String) :
    hasNonemptyQueue sys name prob = !(statusOf sys name prob).frozenSubs.isEmpty := by
  unfold hasNonemptyQueue statusOf teamOf
  cases hA : getEntry sys.teams name with
  | none => simp [getEntry]
  | some t =>
    simp only [Option.getD_some]
    cases hB : getEntry t.problems prob with
    | none => simp
    | some ps => simp

theorem countsSolved_eq_statusOf (sys : ICPCSystem) (name prob : String) :
    countsSolved (teamOf sys name) prob
      = ((statusOf sys name prob).solved && (statusOf sys name prob).wasSolvedBeforeFreeze) := by
  unfold countsSolved statusOf
  cases h : getEntry (teamOf sys name).problems prob with
  | none => simp
  | some ps => simp

theorem probPenalty_eq_statusOf (sys : ICPCSystem) (name prob : String) :
    probPenalty (teamOf sys name) prob
      = (statusOf sys name prob).solveTime + 20 * (statusOf sys name prob).wrongAttempts := rfl

theorem probTime_eq_statusOf (sys : ICPCSystem) (name prob : String) :
    probTime (teamOf sys name) prob = (statusOf sys name prob).solveTime := rfl

/-! ### Ranking lookup corollaries -/

theorem sorted_names_nodup {sys : ICPCSystem} (hnd : sys.teamNames.Nodup) :
    ((sortBy rankBetter (sys.teamNames.map (getTeamRankInfo sys))).map
      (fun y => y.name)).Nodup := by
  have hperm := (sortBy_perm rankBetter (sys.teamNames.map (getTeamRankInfo sys))).map
    (fun y : TeamRankInfo => y.name)
  refine hperm.nodup_iff.mpr ?_
  rw [infos_map_name]
  exact hnd

theorem rankOf_of_mem_calculateRanking {sys : ICPCSystem} {nm : String} {rk : Nat}
    (hnd : sys.teamNames.Nodup) (hmem : (nm, rk) ∈ calculateRanking sys) :
    rankOf (calculateRanking sys) nm = rk :=
  rankOf_of_mem_assignRanks (sorted_names_nodup hnd) hmem

theorem mem_teamNames_of_mem_calculateRanking {sys : ICPCSystem} {nm : String}
    {rk : Nat} (hmem : (nm, rk) ∈ calculateRanking sys) : nm ∈ sys.teamNames := by
  have h1 : nm ∈ (calculateRanking sys).map Prod.fst := List.mem_map_of_mem _ hmem
  exact (calculateRanking_map_fst sys).mem_iff.mp h1

theorem exists_rank_entry (sys : ICPCSystem) {k : Nat}
    (h1 : 1 ≤ k) (h2 : k ≤ sys.teamNames.length) :
    ∃ nm, (nm, k) ∈ calculateRanking sys := by
  have hk : k ∈ (calculateRanking sys).map Prod.snd := by
    rw [calculateRanking_map_snd]
    exact List.mem_range'.mpr ⟨k - 1, by omega, by omega⟩
  rcases List.mem_map.mp hk with ⟨p, hp, hpk⟩
  exact ⟨p.1, by rwa [show (p.1, k) = p from by rw [← hpk]]⟩

/-! ### Team-info effect of one reveal -/

theorem getTeamRankInfo_revealAt_ne (sys : ICPCSystem) {name tn : String}
    (prob : String) (h : tn ≠ name) :
    getTeamRankInfo (revealAt sys name prob) tn = getTeamRankInfo sys tn := by
  refine getTeamRankInfo_congr tn rfl ?_ ?_
  · intro p hp
    rw [countsSolved_eq_statusOf, countsSolved_eq_statusOf,
      statusOf_revealAt_ne sys (Or.inl h)]
  · intro p hp hcp
    rw [probPenalty_eq_statusOf, probPenalty_eq_statusOf,
      probTime_eq_statusOf, probTime_eq_statusOf,
      statusOf_revealAt_ne sys (Or.inl h)]
    exact ⟨rfl, rfl⟩

theorem getTeamRankInfo_revealAt_self (sys : ICPCSystem) (name prob : String)
    (hpl : sys.problemList.Nodup) :
    getTeamRankInfo (revealAt sys name prob) name = getTeamRankInfo sys name
    ∨ (getTeamRankInfo (revealAt sys name prob) name).solved
        = (getTeamRankInfo sys name).solved + 1 := by
  have hself := statusOf_revealAt_self sys name prob
  by_cases hmem : prob ∈ sys.problemList
  · by_cases hsol : (statusOf sys name prob).solved = true
    · left
      have hfold : (statusOf sys name prob).frozenSubs.foldl replaySub
          (statusOf sys name prob) = statusOf sys name prob :=
        foldl_replaySub_solved hsol _
      refine getTeamRankInfo_congr name rfl ?_ ?_
      · intro p hp
        by_cases hpq : p = prob
        · subst hpq
          rw [countsSolved_eq_statusOf, countsSolved_eq_statusOf, hself, hfold]
        · rw [countsSolved_eq_statusOf, countsSolved_eq_statusOf,
            statusOf_revealAt_ne sys (Or.inr hpq)]
      · intro p hp hcp
        by_cases hpq : p = prob
        · subst hpq
          rw [probPenalty_eq_statusOf, probPenalty_eq_statusOf,
            probTime_eq_statusOf, probTime_eq_statusOf, hself, hfold]
          exact ⟨rfl, rfl⟩
        · rw [probPenalty_eq_statusOf, probPenalty_eq_statusOf,
            probTime_eq_statusOf, probTime_eq_statusOf,
            statusOf_revealAt_ne sys (Or.inr hpq)]
          exact ⟨rfl, rfl⟩
    · by_cases hsol2 : ((statusOf sys name prob).frozenSubs.foldl replaySub
          (statusOf sys name prob)).solved = true
      · right
        have hflag2 : ((statusOf sys name prob).frozenSubs.foldl replaySub
            (statusOf sys name prob)).wasSolvedBeforeFreeze = true :=
          foldl_replaySub_solvedImp (fun hs => absurd hs hsol) _ hsol2
        show (List.filter (fun p => countsSolved (teamOf (revealAt sys name prob) name) p)
            (revealAt sys name prob).problemList).length
          = (List.filter (fun p => countsSolved (teamOf sys name) p)
              sys.problemList).length + 1
        have hpleq : (revealAt sys name prob).problemList = sys.problemList := rfl
        rw [hpleq]
        refine filter_length_flip hpl hmem ?_ ?_ ?_
        · rw [countsSolved_eq_statusOf]
          simp [hsol]
        · rw [countsSolved_eq_statusOf, hself]
          simp [hsol2, hflag2]
        · intro x hx hxq
          rw [countsSolved_eq_statusOf, countsSolved_eq_statusOf,
            statusOf_revealAt_ne sys (Or.inr hxq)]
      · left
        refine getTeamRankInfo_congr name rfl ?_ ?_
        · intro p hp
          by_cases hpq : p = prob
          · rw [hpq, countsSolved_eq_statusOf, countsSolved_eq_statusOf, hself]
            have h1 : ((statusOf sys name prob).frozenSubs.foldl replaySub
                (statusOf sys name prob)).solved = false := by
              cases hx : ((statusOf sys name prob).frozenSubs.foldl replaySub
                  (statusOf sys name prob)).solved
              · rfl
              · exact absurd hx hsol2
            have h2 : (statusOf sys name prob).solved = false := by
              cases hy : (statusOf sys name prob).solved
              · rfl
              · exact absurd hy hsol
            simp [h1, h2]
          · rw [countsSolved_eq_statusOf, countsSolved_eq_statusOf,
              statusOf_revealAt_ne sys (Or.inr hpq)]
        · intro p hp hcp
          by_cases hpq : p = prob
          · exfalso
            rw [hpq, countsSolved_eq_statusOf, hself] at hcp
            simp only [Bool.and_eq_true] at hcp
            exact hsol2 hcp.1
          · rw [probPenalty_eq_statusOf, probPenalty_eq_statusOf,
              probTime_eq_statusOf, probTime_eq_statusOf,
              statusOf_revealAt_ne sys (Or.inr hpq)]
            exact ⟨rfl, rfl⟩
  · left
    refine getTeamRankInfo_congr name rfl ?_ ?_
    · intro p hp
      have hpq : p ≠ prob := fun hh => hmem (hh ▸ hp)
      rw [countsSolved_eq_statusOf, countsSolved_eq_statusOf,
        statusOf_revealAt_ne sys (Or.inr hpq)]
    · intro p hp hcp
      have hpq : p ≠ prob := fun hh => hmem (hh ▸ hp)
      rw [probPenalty_eq_statusOf, probPenalty_eq_statusOf,
        probTime_eq_statusOf, probTime_eq_statusOf,
        statusOf_revealAt_ne sys (Or.inr hpq)]
      exact ⟨rfl, rfl⟩

/-! ### The scroll loop's termination measure -/

theorem countP_congr_list {α : Type} {l : List α} {p q : α → Bool}
    (h : ∀ x ∈ l, p x = q x) : l.countP p = l.countP q := by
  rw [List.countP_eq_length_filter, List.countP_eq_length_filter,
    List.filter_congr h]

theorem frozenPairCount_revealAt {sys : ICPCSystem} {name prob : String}
    (hndT : sys.teamNames.Nodup) (hndP : sys.problemList.Nodup)
    (hT : name ∈ sys.teamNames) (hP : prob ∈ sys.problemList)
    (hq : hasNonemptyQueue sys name prob = true) :
    frozenPairCount (revealAt sys name prob) + 1 = frozenPairCount sys := by
  unfold frozenPairCount
  have hpleq : (revealAt sys name prob).problemList = sys.problemList := rfl
  have hnmeq : (revealAt sys name prob).teamNames = sys.teamNames := rfl
  rw [hpleq, hnmeq]
  refine sum_map_flip hndT hT ?_ ?_
  · have hflip : (sys.problemList.filter
        (fun p => hasNonemptyQueue sys name p)).length
      = (sys.problemList.filter
          (fun p => hasNonemptyQueue (revealAt sys name prob) name p)).length + 1 := by
      refine filter_length_flip hndP hP ?_ hq ?_
      · rw [hasNonemptyQueue_eq, statusOf_revealAt_self]
        simp
      · intro x hx hxp
        rw [hasNonemptyQueue_eq, hasNonemptyQueue_eq,
          statusOf_revealAt_ne sys (Or.inr hxp)]
    rw [List.countP_eq_length_filter, List.countP_eq_length_filter]
    omega
  · intro x hx hxn
    refine countP_congr_list ?_
    intro p hp
    rw [hasNonemptyQueue_eq, hasNonemptyQueue_eq,
      statusOf_revealAt_ne sys (Or.inl hxn)]

theorem frozenPairCount_pos {sys : ICPCSystem}
    (h1 : sys.lastRanking = calculateRanking sys)
    (hf : (findLowest sys).1 = true) : 1 ≤ frozenPairCount sys := by
  have hpos : ∀ p ∈ sys.lastRanking, 1 ≤ p.2 := by
    intro p hp
    rw [h1] at hp
    exact (calculateRanking_rank_pos sys hp).1
  obtain ⟨hmem, hfroz, _⟩ := findLowest_spec sys hpos hf
  rw [h1] at hmem
  have hT : (findLowest sys).2.1 ∈ sys.teamNames :=
    mem_teamNames_of_mem_calculateRanking hmem
  have hcp : 1 ≤ sys.problemList.countP
      (fun prob => hasNonemptyQueue sys (findLowest sys).2.1 prob) := by
    rcases List.any_eq_true.mp hfroz with ⟨q, hqm, hqq⟩
    exact Nat.succ_le_of_lt (List.countP_pos_iff.mpr ⟨q, hqm, hqq⟩)
  calc (1 : Nat) ≤ sys.problemList.countP
        (fun prob => hasNonemptyQueue sys (findLowest sys).2.1 prob) := hcp
    _ ≤ frozenPairCount sys := by
        unfold frozenPairCount
        refine List.single_le_sum (fun x _ => Nat.zero_le x) _ ?_
        exact List.mem_map_of_mem _ hT

theorem selectProb_find {sys : ICPCSystem} {name : String}
    (hfroz : teamHasFrozen sys name = true) :
    sys.problemList.find? (fun prob => hasNonemptyQueue sys name prob)
      = some (selectProb sys name) := by
  have hfs : (sys.problemList.find?
      (fun prob => hasNonemptyQueue sys name prob)).isSome := by
    rcases List.any_eq_true.mp hfroz with ⟨q, hqm, hqq⟩
    exact List.find?_isSome.mpr ⟨q, hqm, hqq⟩
  rcases Option.isSome_iff_exists.mp hfs with ⟨q, hq⟩
  rw [hq]
  unfold selectProb
  rw [hq]
  rfl

theorem scrollStep_count {sys : ICPCSystem} {r : ScrollStepResult}
    (h : scrollStep sys = some r)
    (h1 : sys.lastRanking = calculateRanking sys)
    (hndT : sys.teamNames.Nodup) (hndP : sys.problemList.Nodup) :
    frozenPairCount r.sys + 1 = frozenPairCount sys := by
  obtain ⟨hf, hteam, hold, hprob, hsys, _, _⟩ := scrollStep_eq_some h
  have hpos : ∀ p ∈ sys.lastRanking, 1 ≤ p.2 := by
    intro p hp
    rw [h1] at hp
    exact (calculateRanking_rank_pos sys hp).1
  obtain ⟨hmem, hfroz, _⟩ := findLowest_spec sys hpos hf
  rw [← hteam] at hmem hfroz
  rw [h1] at hmem
  have hT : r.team ∈ sys.teamNames := mem_teamNames_of_mem_calculateRanking hmem
  have hfind := selectProb_find hfroz
  rw [← hprob] at hfind
  have hP : r.prob ∈ sys.problemList := List.mem_of_find?_eq_some hfind
  have hq : hasNonemptyQueue sys r.team r.prob = true := List.find?_some hfind
  have hcnt : frozenPairCount r.sys = frozenPairCount (revealAt sys r.team r.prob) := by
    rw [hsys]
    rfl
  rw [hcnt]
  exact frozenPairCount_revealAt hndT hndP hT hP hq

theorem frozenPairCount_le (sys : ICPCSystem) :
    frozenPairCount sys ≤ sys.teamNames.length * sys.problemList.length := by
  unfold frozenPairCount
  exact sum_map_le (fun x _ => List.countP_le_length _)

theorem runSteps_none {n : Nat} {sys : ICPCSystem}
    (h1 : sys.lastRanking = calculateRanking sys)
    (hndT : sys.teamNames.Nodup) (hndP : sys.problemList.Nodup)
    (hcount : frozenPairCount sys ≤ n) :
    scrollStep (runSteps n sys) = none := by
  induction n generalizing sys with
  | zero =>
    simp only [runSteps]
    cases hfl : (findLowest sys).1 with
    | false => exact (scrollStep_none_iff sys).mpr hfl
    | true =>
      exfalso
      have := frozenPairCount_pos h1 hfl
      omega
  | succ n ih =>
    simp only [runSteps]
    cases hs : scrollStep sys with
    | none => exact hs
    | some r =>
      obtain ⟨hf, hteam, hold, hprob, hsys, _, _⟩ := scrollStep_eq_some hs
      have hr1 : r.sys.lastRanking = calculateRanking r.sys := by
        rw [hsys]
        rfl
      have hrT : r.sys.teamNames.Nodup := by
        rw [hsys]
        exact hndT
      have hrP : r.sys.problemList.Nodup := by
        rw [hsys]
        exact hndP
      have hcnt := scrollStep_count hs h1 hndT hndP
      exact ih hr1 hrT hrP (by omega)

/-! ### Preservation of the solved/flag invariant (claim C9) -/

theorem statusOf_flagInv {sys : ICPCSystem} (inv : solvedFlagInv sys)
    (tn p : String) :
    (statusOf sys tn p).solved = (statusOf sys tn p).wasSolvedBeforeFreeze := by
  unfold statusOf teamOf
  cases hA : getEntry sys.teams tn with
  | none => simp [getEntry]
  | some t =>
    simp only [Option.getD_some]
    cases hB : getEntry t.problems p with
    | none => simp
    | some ps =>
      simp only [Option.getD_some]
      exact inv (tn, t) (getEntry_mem hA) (p, ps) (getEntry_mem hB)

theorem teamProblems_flagInv {sys : ICPCSystem} (inv : solvedFlagInv sys)
    (tn : String) :
    ∀ q ∈ (teamOf sys tn).problems,
      (q.2 : ProblemStatus).solved = q.2.wasSolvedBeforeFreeze := by
  unfold teamOf
  cases hA : getEntry sys.teams tn with
  | none => simp [getEntry]
  | some t =>
    simp only [Option.getD_some]
    exact fun q hq => inv (tn, t) (getEntry_mem hA) q hq

theorem solvedFlagInv_addTeam {sys : ICPCSystem} (inv : solvedFlagInv sys)
    (name : String) : solvedFlagInv (addTeam sys name) := by
  unfold addTeam
  by_cases hs : sys.started = true
  · simpa [hs] using inv
  · by_cases hd : (getEntry sys.teams name).isSome = true
    · simp only [hs, Bool.false_eq_true, if_false, hd, if_true]
      exact inv
    · simp only [hs, Bool.false_eq_true, if_false, hd, if_false]
      intro e he q hq
      rcases mem_setEntry he with he1 | he1
      · rw [he1] at hq
        simp at hq
      · exact inv e he1 q hq

theorem solvedFlagInv_start {sys : ICPCSystem} (inv : solvedFlagInv sys)
    (duration problems : Nat) : solvedFlagInv (start sys duration problems) := by
  unfold start
  by_cases hs : sys.started = true
  · simpa [hs] using inv
  · simp only [hs, Bool.false_eq_true, if_false]
    exact inv

theorem solvedFlagInv_submit {sys : ICPCSystem} (inv : solvedFlagInv sys)
    (problem teamName status : String) (time : Nat) :
    solvedFlagInv (submit sys problem teamName status time) := by
  intro e he q hq
  unfold submit at he
  simp only at he
  rcases mem_setEntry he with he1 | he1
  · rw [he1] at hq
    simp only at hq
    rcases mem_setEntry hq with hq1 | hq1
    · rw [hq1]
      simp only
      by_cases hfr : (sys.frozen && !((getEntry (teamOf sys teamName).problems
          problem).getD {}).wasSolvedBeforeFreeze) = true
      · rw [if_pos hfr]
        exact statusOf_flagInv inv teamName problem
      · rw [if_neg hfr]
        exact applySubmit_flagInv status time (statusOf_flagInv inv teamName problem)
    · exact teamProblems_flagInv inv teamName q hq1
  · exact inv e he1 q hq

theorem solvedFlagInv_flush {sys : ICPCSystem} (inv : solvedFlagInv sys) :
    solvedFlagInv (flush sys) := inv

theorem solvedFlagInv_freeze {sys : ICPCSystem} (inv : solvedFlagInv sys) :
    solvedFlagInv (freeze sys) := by
  unfold freeze
  by_cases hf : sys.frozen = true
  · simpa [hf] using inv
  · simp only [hf, Bool.false_eq_true, if_false]
    intro e he q hq
    rcases List.mem_map.mp he with ⟨e0, he0, hee⟩
    rw [← hee] at hq
    simp only [freezeTeam] at hq
    rcases List.mem_map.mp hq with ⟨q0, hq0, hqq⟩
    have h0 := inv e0 he0 q0 hq0
    rw [← hqq]
    by_cases hsol : (q0.2 : ProblemStatus).solved = true
    · simp [hsol]
    · simp only
      rw [if_neg hsol]
      exact h0

theorem solvedFlagInv_revealAt {sys : ICPCSystem} (inv : solvedFlagInv sys)
    (name prob : String) : solvedFlagInv (revealAt sys name prob) := by
  intro e he q hq
  unfold revealAt at he
  simp only at he
  rcases mem_setEntry he with he1 | he1
  · rw [he1] at hq
    simp only at hq
    rcases mem_setEntry hq with hq1 | hq1
    · rw [hq1]
      simp only
      exact foldl_replaySub_flagInv (statusOf_flagInv inv name prob) _
    · exact teamProblems_flagInv inv name q hq1
  · exact inv e he1 q hq

theorem solvedFlagInv_runSteps {sys : ICPCSystem} (inv : solvedFlagInv sys)
    (n : Nat) : solvedFlagInv (runSteps n sys) := by
  induction n generalizing sys with
  | zero => exact inv
  | succ n ih =>
    simp only [runSteps]
    cases hs : scrollStep sys with
    | none => exact inv
    | some r =>
      obtain ⟨_, _, _, _, hsys, _, _⟩ := scrollStep_eq_some hs
      refine ih ?_
      have hrv := solvedFlagInv_revealAt inv r.team r.prob
      rw [hsys]
      exact hrv

theorem solvedFlagInv_scroll {sys : ICPCSystem} (inv : solvedFlagInv sys) :
    solvedFlagInv (scroll sys) := by
  unfold scroll
  cases hf : sys.frozen with
  | false =>
    simp only [hf, Bool.not_false, if_true]
    exact inv
  | true =>
    simp only [hf, Bool.not_true, Bool.false_eq_true, if_false]
    have inv1 : solvedFlagInv
        { sys with frozen := true, lastRanking := calculateRanking sys } := inv
    intro e he q hq
    exact solvedFlagInv_runSteps inv1
      (sys.teamNames.length * sys.problemList.length) e he q hq

theorem reachable_solvedFlagInv {sys : ICPCSystem} (h : Reachable sys) :
    solvedFlagInv sys := by
  induction h with
  | init =>
    intro e he
    simp [initState] at he
  | addTeam name _ ih => exact solvedFlagInv_addTeam ih name
  | start duration problems _ ih => exact solvedFlagInv_start ih duration problems
  | submit problem teamName status time _ ih =>
      exact solvedFlagInv_submit ih problem teamName status time
  | flush _ ih => exact solvedFlagInv_flush ih
  | freeze _ ih => exact solvedFlagInv_freeze ih
  | scroll _ ih => exact solvedFlagInv_scroll ih

/-! ### The claims -/

/-- C1: the ranking calculator orders teams by a total order — higher
`solved` first, then lower `penalty`, then lexicographically smaller
descending solve-time sequence, then name ascending (that chain is the
definition of `rankBetter`): for two distinct registered teams exactly one
compares better, the sorted list is ordered by the comparator, and the
assigned ranks are the dense integers `1..n` with every registered team
ranked exactly once. -/
theorem claim_C1 (sys : ICPCSystem) :
    (∀ a b, a ∈ sys.teamNames → b ∈ sys.teamNames → a ≠ b →
      (rankBetter (getTeamRankInfo sys a) (getTeamRankInfo sys b) = true ↔
       rankBetter (getTeamRankInfo sys b) (getTeamRankInfo sys a) = false))
    ∧ (sortBy rankBetter (sys.teamNames.map (getTeamRankInfo sys))).Pairwise
        (fun a b => rankBetter b a = false)
    ∧ (calculateRanking sys).map Prod.snd = List.range' 1 sys.teamNames.length
    ∧ ((calculateRanking sys).map Prod.fst).Perm sys.teamNames := by
  refine ⟨?_, ?_, calculateRanking_map_snd sys, calculateRanking_map_fst sys⟩
  · intro a b ha hb hab
    have hn : (getTeamRankInfo sys a).name ≠ (getTeamRankInfo sys b).name := hab
    constructor
    · exact fun hlt => rankBetter_asymm hlt
    · intro hlt
      rcases rankBetter_total hn with h1 | h1
      · exact h1
      · rw [h1] at hlt
        cases hlt
  · exact sortBy_pairwise rankBetter (fun a b hx => rankBetter_asymm hx)
      (fun a b c hx hy => rankBetter_trans hx hy) _

theorem claim_C1_witness :
    (calculateRanking wScroll).map Prod.snd = List.range' 1 wScroll.teamNames.length :=
  (claim_C1 wScroll).2.2.1

/-- C2: every `submit` appends the submission to the team's ledger; when the
board is frozen and the problem was not resolved pre-freeze, the submission
is queued on `frozenSubs` with the visible fields untouched; otherwise it
applies normally — Accepted on an unsolved problem sets
`solved/solveTime/wasSolvedBeforeFreeze`, another verdict increments
`wrongAttempts`, and an already-solved problem is left unchanged.  A frozen
submission to a `wasSolvedBeforeFreeze` problem falls into the normal
branch, i.e. applies immediately instead of being hidden. -/
theorem claim_C2 (sys : ICPCSystem) (problem teamName status : String) (time : Nat) :
    ledgerOf (submit sys problem teamName status time) teamName
      = ledgerOf sys teamName ++ [{ problem := problem, status := status, time := time }]
    ∧ (sys.frozen = true ∧ (statusOf sys teamName problem).wasSolvedBeforeFreeze = false →
        statusOf (submit sys problem teamName status time) teamName problem
          = { statusOf sys teamName problem with
              frozenSubs := (statusOf sys teamName problem).frozenSubs
                ++ [{ problem := problem, status := status, time := time }] })
    ∧ (¬(sys.frozen = true ∧ (statusOf sys teamName problem).wasSolvedBeforeFreeze = false) →
        ((statusOf sys teamName problem).solved = false → status = "Accepted" →
          statusOf (submit sys problem teamName status time) teamName problem
            = { statusOf sys teamName problem with
                solved := true, solveTime := time, wasSolvedBeforeFreeze := true })
        ∧ ((statusOf sys teamName problem).solved = false → status ≠ "Accepted" →
          statusOf (submit sys problem teamName status time) teamName problem
            = { statusOf sys teamName problem with
                wrongAttempts := (statusOf sys teamName problem).wrongAttempts + 1 })
        ∧ ((statusOf sys teamName problem).solved = true →
          statusOf (submit sys problem teamName status time) teamName problem
            = statusOf sys teamName problem)) := by
  have hled : ledgerOf (submit sys problem teamName status time) teamName
      = ledgerOf sys teamName
        ++ [{ problem := problem, status := status, time := time }] := by
    unfold submit ledgerOf teamOf
    simp only
    rw [getEntry_setEntry_self]
    simp only [Option.getD_some]
  have hst : statusOf (submit sys problem teamName status time) teamName problem
      = (if sys.frozen && !(statusOf sys teamName problem).wasSolvedBeforeFreeze then
          { statusOf sys teamName problem with
            frozenSubs := (statusOf sys teamName problem).frozenSubs
              ++ [{ problem := problem, status := status, time := time }] }
        else applySubmit (statusOf sys teamName problem) status time) := by
    unfold submit statusOf teamOf
    simp only
    rw [getEntry_setEntry_self]
    simp only [Option.getD_some]
    rw [getEntry_setEntry_self]
    simp only [Option.getD_some]
  refine ⟨hled, ?_, ?_⟩
  · intro hfr
    rw [hst, if_pos (by rw [hfr.1, hfr.2]; rfl)]
  · intro hnfr
    have hcond : (sys.frozen && !(statusOf sys teamName problem).wasSolvedBeforeFreeze)
        = false := by
      cases hf : sys.frozen with
      | false => rfl
      | true =>
        cases hw : (statusOf sys teamName problem).wasSolvedBeforeFreeze with
        | false => exact absurd ⟨hf, hw⟩ hnfr
        | true => simp [hw]
    refine ⟨?_, ?_, ?_⟩
    · intro hsol hacc
      rw [hst, hcond]
      simp only [Bool.false_eq_true, if_false]
      unfold applySubmit
      rw [hsol, hacc]
      rfl
    · intro hsol hacc
      rw [hst, hcond]
      simp only [Bool.false_eq_true, if_false]
      unfold applySubmit
      rw [hsol, if_neg hacc]
      rfl
    · intro hsol
      rw [hst, hcond]
      simp only [Bool.false_eq_true, if_false]
      unfold applySubmit
      rw [hsol]
      rfl

theorem claim_C2_witness :
    ledgerOf (submit wFrozen "A" "bob" "Wrong" 140) "bob"
      = ledgerOf wFrozen "bob" ++ [{ problem := "A", status := "Wrong", time := 140 }] :=
  (claim_C2 wFrozen "A" "bob" "Wrong" 140).1

/-- Either a team-problem pair is absent (reading as the default status) or
`visibleOf` carries exactly the four visible fields of `statusOf`. -/
theorem visibleOf_statusOf (sys : ICPCSystem) (name prob : String) :
    (visibleOf sys name prob = none ∧ statusOf sys name prob = {})
    ∨ visibleOf sys name prob = some ((statusOf sys name prob).solved,
        (statusOf sys name prob).solveTime, (statusOf sys name prob).wrongAttempts,
        (statusOf sys name prob).wasSolvedBeforeFreeze) := by
  unfold visibleOf statusOf teamOf
  cases hA : getEntry sys.teams name with
  | none => exact Or.inl ⟨rfl, by simp [getEntry]⟩
  | some t =>
    simp only [Option.getD_some]
    cases hB : getEntry t.problems prob with
    | none => exact Or.inl ⟨rfl, rfl⟩
    | some ps => exact Or.inr rfl

theorem visible_eq_fields {sys sys' : ICPCSystem} {name prob : String}
    (h : visibleOf sys name prob = visibleOf sys' name prob) :
    (statusOf sys name prob).solved = (statusOf sys' name prob).solved
    ∧ (statusOf sys name prob).solveTime = (statusOf sys' name prob).solveTime
    ∧ (statusOf sys name prob).wrongAttempts = (statusOf sys' name prob).wrongAttempts
    ∧ (statusOf sys name prob).wasSolvedBeforeFreeze
        = (statusOf sys' name prob).wasSolvedBeforeFreeze := by
  rcases visibleOf_statusOf sys name prob with ⟨hv1, hs1⟩ | hv1 <;>
    rcases visibleOf_statusOf sys' name prob with ⟨hv2, hs2⟩ | hv2
  · rw [hs1, hs2]
    exact ⟨rfl, rfl, rfl, rfl⟩
  · rw [hv1, hv2] at h
    cases h
  · rw [hv1, hv2] at h
    cases h
  · rw [hv1, hv2] at h
    have h4 := Option.some.inj h
    have h41 := congrArg Prod.fst h4
    have h42 := congrArg (fun z => z.2.1) h4
    have h43 := congrArg (fun z => z.2.2.1) h4
    have h44 := congrArg (fun z => z.2.2.2) h4
    exact ⟨h41, h42, h43, h44⟩

/-- C6: the computed ranking is a pure function of the four visible fields
`solved/solveTime/wrongAttempts/wasSolvedBeforeFreeze` over the registered
teams and contest problems: two states agreeing on these (however their
`frozenSubs` queues differ) get identical team infos and an identical
ranking. -/
theorem claim_C6 (sys sys' : ICPCSystem)
    (hn : sys.teamNames = sys'.teamNames) (hp : sys.problemList = sys'.problemList)
    (hv : ∀ name ∈ sys.teamNames, ∀ prob ∈ sys.problemList,
      visibleOf sys name prob = visibleOf sys' name prob) :
    (∀ tn ∈ sys.teamNames, getTeamRankInfo sys tn = getTeamRankInfo sys' tn)
    ∧ calculateRanking sys = calculateRanking sys' := by
  have hinfo : ∀ tn ∈ sys.teamNames, getTeamRankInfo sys tn = getTeamRankInfo sys' tn := by
    intro tn htn
    refine getTeamRankInfo_congr tn hp ?_ ?_
    · intro p hpm
      obtain ⟨f1, f2, f3, f4⟩ := visible_eq_fields (hv tn htn p hpm)
      rw [countsSolved_eq_statusOf, countsSolved_eq_statusOf, f1, f4]
    · intro p hpm hcp
      obtain ⟨f1, f2, f3, f4⟩ := visible_eq_fields (hv tn htn p hpm)
      rw [probPenalty_eq_statusOf, probPenalty_eq_statusOf,
        probTime_eq_statusOf, probTime_eq_statusOf, f2, f3]
      exact ⟨rfl, rfl⟩
  refine ⟨hinfo, ?_⟩
  unfold calculateRanking
  rw [hn]
  congr 1
  congr 1
  exact List.map_congr_left (fun tn htn => hinfo tn (hn ▸ htn))

theorem claim_C6_witness :
    calculateRanking wFrozen = calculateRanking wFrozen2 :=
  (claim_C6 wFrozen wFrozen2 (by decide) (by decide) (by decide)).2

/-- C5: `queryRanking` fails exactly on unknown teams; a successful query
reports the frozen-staleness advisory exactly when the board is frozen and
returns the rank read from the cached snapshot when one exists, otherwise
the team's 1-based alphabetical position among the registered names (one
plus the number of lexicographically smaller names); `flush` is what caches
`calculateRanking` into the snapshot. -/
theorem claim_C5 (sys : ICPCSystem) (name : String) (hnd : sys.teamNames.Nodup) :
    (queryRanking sys name = QueryRankingResult.unknown
      ↔ getEntry sys.teams name = none)
    ∧ (∀ w rk, queryRanking sys name = QueryRankingResult.ok w rk →
        w = sys.frozen
        ∧ (sys.lastRanking.isEmpty = false → rk = rankOf sys.lastRanking name)
        ∧ (sys.lastRanking.isEmpty = true → rk = alphaRank sys.teamNames name))
    ∧ (name ∈ sys.teamNames →
        alphaRank sys.teamNames name
          = 1 + sys.teamNames.countP (fun m => strLt m name))
    ∧ (flush sys).lastRanking = calculateRanking sys := by
  refine ⟨?_, ?_, ?_, rfl⟩
  · unfold queryRanking
    cases hA : getEntry sys.teams name with
    | none => simp
    | some t => simp
  · intro w rk hq
    unfold queryRanking at hq
    cases hA : getEntry sys.teams name with
    | none =>
      rw [hA] at hq
      simp at hq
    | some t =>
      rw [hA] at hq
      simp only [Option.isNone_some, Bool.false_eq_true, if_false,
        QueryRankingResult.ok.injEq] at hq
      refine ⟨hq.1.symm, ?_, ?_⟩
      · intro hne
        rw [← hq.2, hne]
        simp
      · intro he
        rw [← hq.2, he]
        simp
  · intro hmem
    have hsorted := sortBy_pairwise strLt (fun a b hx => strLt_asymm hx)
      (fun a b c hx hy => strLt_trans hx hy) sys.teamNames
    have hperm := sortBy_perm strLt sys.teamNames
    have hsnodup : (sortBy strLt sys.teamNames).Nodup := hperm.nodup_iff.mpr hnd
    have htotal : (sortBy strLt sys.teamNames).Pairwise
        (fun a b => a ≠ b → (strLt a b = true ∨ strLt b a = true)) := by
      refine List.Pairwise.imp ?_ hsnodup
      intro a b hab
      exact fun _ => strLt_total hab
    have hpos := sorted_posOf_eq_countP strLt strLt_irrefl hsorted htotal hsnodup
      (hperm.mem_iff.mpr hmem)
    unfold alphaRank
    rw [hpos, hperm.countP_eq]
    show sys.teamNames.countP (fun y => strLt y name) + 1
      = 1 + sys.teamNames.countP (fun m => strLt m name)
    omega

theorem claim_C5_witness :
    queryRanking wScroll "bob" = QueryRankingResult.unknown
      ↔ getEntry wScroll.teams "bob" = none :=
  (claim_C5 wScroll "bob" (by decide)).1

/-- C10: a submit for a never-registered team does not fail — it creates the
team entry (so the queries treat the team as known) and records the
submission in the ledger; but the team is not added to `teamNames`, never
appears in a computed ranking, and `queryRanking` reports rank `0` for it
(in both the cached-snapshot and the alphabetical branch). -/
theorem claim_C10 (sys : ICPCSystem) (problem teamName status : String) (time : Nat)
    (habsent : getEntry sys.teams teamName = none)
    (hnr : teamName ∉ sys.teamNames)
    (hlr : ∀ p ∈ sys.lastRanking, p.1 ≠ teamName) :
    (getEntry (submit sys problem teamName status time).teams teamName).isSome = true
    ∧ ledgerOf (submit sys problem teamName status time) teamName
        = [{ problem := problem, status := status, time := time }]
    ∧ (submit sys problem teamName status time).teamNames = sys.teamNames
    ∧ teamName ∉ (calculateRanking (submit sys problem teamName status time)).map Prod.fst
    ∧ queryRanking (submit sys problem teamName status time) teamName
        = QueryRankingResult.ok sys.frozen 0
    ∧ querySubmission (submit sys problem teamName status time) teamName "ALL" "ALL"
        = QuerySubmissionResult.found { problem := problem, status := status, time := time } := by
  have hsome : getEntry (submit sys problem teamName status time).teams teamName
      = some { teamOf sys teamName with
          submissions := (teamOf sys teamName).submissions
            ++ [{ problem := problem, status := status, time := time }]
          problems := setEntry (teamOf sys teamName).problems problem
            (if sys.frozen && !(statusOf sys teamName problem).wasSolvedBeforeFreeze then
              { statusOf sys teamName problem with
                frozenSubs := (statusOf sys teamName problem).frozenSubs
                  ++ [{ problem := problem, status := status, time := time }] }
            else applySubmit (statusOf sys teamName problem) status time) } := by
    unfold submit statusOf teamOf
    simp only
    rw [getEntry_setEntry_self]
  have hled : ledgerOf (submit sys problem teamName status time) teamName
      = [{ problem := problem, status := status, time := time }] := by
    unfold ledgerOf teamOf
    rw [hsome]
    simp only [Option.getD_some]
    show (teamOf sys teamName).submissions ++ _ = _
    unfold teamOf
    rw [habsent]
    rfl
  have hnames : (submit sys problem teamName status time).teamNames = sys.teamNames := rfl
  refine ⟨by rw [hsome]; rfl, hled, hnames, ?_, ?_, ?_⟩
  · intro hmemf
    have := (calculateRanking_map_fst (submit sys problem teamName status time)).mem_iff.mp hmemf
    rw [hnames] at this
    exact hnr this
  · unfold queryRanking
    rw [hsome]
    simp only [Option.isNone_some, Bool.false_eq_true, if_false]
    have hfr : (submit sys problem teamName status time).frozen = sys.frozen := rfl
    have hlr' : (submit sys problem teamName status time).lastRanking = sys.lastRanking := rfl
    rw [hfr, hlr']
    cases he : sys.lastRanking.isEmpty with
    | true =>
      simp only [if_true]
      suffices h : alphaRank sys.teamNames teamName = 0 by
        rw [show (submit sys problem teamName status time).teamNames = sys.teamNames from rfl, h]
      unfold alphaRank
      rw [posOf_eq_none]
      intro x hx
      have hxm : x ∈ sys.teamNames := (sortBy_perm strLt sys.teamNames).mem_iff.mp hx
      have : x ≠ teamName := fun hh => hnr (hh ▸ hxm)
      simp [this]
    | false =>
      simp only [Bool.false_eq_true, if_false]
      suffices h : rankOf sys.lastRanking teamName = 0 by rw [h]
      unfold rankOf
      rw [List.find?_eq_none.mpr]
      intro p hp
      simp [hlr p hp]
  · unfold querySubmission
    rw [show getEntry (submit sys problem teamName status time).teams teamName
        = some _ from hsome]
    simp only [Option.isNone_some, Bool.false_eq_true, if_false]
    rw [hled]
    rfl

theorem claim_C10_witness :
    ledgerOf (submit wPre "A" "ghost" "Accepted" 5) "ghost"
      = [{ problem := "A", status := "Accepted", time := 5 }] :=
  (claim_C10 wPre "A" "ghost" "Accepted" 5 (by decide) (by decide) (by decide)).2.1

/-- C9: in every reachable state, `solved` and `wasSolvedBeforeFreeze` agree
on every stored team-problem status (every path that sets one sets the
other); consequently the ranking's visibility condition
`solved && wasSolvedBeforeFreeze` collapses to `solved`, and the snapshot
loop of `freeze` leaves the stored teams unchanged. -/
theorem claim_C9 (sys : ICPCSystem) (h : Reachable sys) :
    solvedFlagInv sys
    ∧ (∀ tn p, ((statusOf sys tn p).solved && (statusOf sys tn p).wasSolvedBeforeFreeze)
        = (statusOf sys tn p).solved)
    ∧ (sys.frozen = false → (freeze sys).teams = sys.teams) := by
  have inv := reachable_solvedFlagInv h
  refine ⟨inv, ?_, ?_⟩
  · intro tn p
    rw [← statusOf_flagInv inv tn p]
    cases (statusOf sys tn p).solved <;> simp
  · intro hf
    unfold freeze
    rw [if_neg (by simp [hf])]
    simp only
    have hid : ∀ e ∈ sys.teams, ((fun p : String × Team => (p.1, freezeTeam p.2)) e) = e := by
      intro e he
      rcases e with ⟨k, t⟩
      simp only
      have hteam : freezeTeam t = t := by
        unfold freezeTeam
        have hidq : ∀ q ∈ t.problems,
            ((fun q : String × ProblemStatus =>
              (q.1, if q.2.solved then { q.2 with wasSolvedBeforeFreeze := true }
                    else q.2)) q) = q := by
          intro q hq
          rcases q with ⟨pk, ps⟩
          simp only
          have hinv := inv (k, t) he (pk, ps) hq
          by_cases hs : ps.solved = true
          · rw [if_pos hs]
            have hflag : ps.wasSolvedBeforeFreeze = true := hinv ▸ hs
            rcases ps with ⟨s1, s2, s3, s4, s5⟩
            simp only at hflag
            rw [hflag]
          · rw [if_neg hs]
        rw [List.map_congr_left hidq]
        simp
      rw [hteam]
    rw [List.map_congr_left hid]
    simp

theorem claim_C9_witness :
    ((statusOf wScroll "bob" "A").solved && (statusOf wScroll "bob" "A").wasSolvedBeforeFreeze)
      = (statusOf wScroll "bob" "A").solved :=
  (claim_C9 wScroll
    (Reachable.flush (Reachable.submit "A" "bob" "Accepted" 120
      (Reachable.submit "A" "bob" "Wrong" 100
        (Reachable.freeze (Reachable.submit "B" "bob" "Accepted" 15
          (Reachable.submit "A" "alice" "Accepted" 20
            (Reachable.submit "A" "alice" "Wrong" 10
              (Reachable.start 300 2
                (Reachable.addTeam "alice"
                  (Reachable.addTeam "bob" Reachable.init))))))))))).2.1 "bob" "A"

/-- C3: a reveal step selects the worst-ranked team of the current ranking
among those with a hidden queue, then that team's first problem in
`problemList` order with a non-empty queue (the lowest identifier, as
`problemList` is ascending), replays the entire queue in order under the
normal submit rules (already-solved replays have no effect), clears it, and
touches no other team-problem state. -/
theorem claim_C3 (sys : ICPCSystem) (r : ScrollStepResult)
    (h : scrollStep sys = some r)
    (h1 : sys.lastRanking = calculateRanking sys)
    (hsort : sys.problemList.Pairwise (fun a b => strLt a b = true)) :
    ((r.team, r.oldRank) ∈ sys.lastRanking
     ∧ teamHasFrozen sys r.team = true
     ∧ (∀ p ∈ sys.lastRanking, teamHasFrozen sys p.1 = true → p.2 ≤ r.oldRank))
    ∧ (sys.problemList.find? (fun prob => hasNonemptyQueue sys r.team prob)
        = some r.prob
       ∧ hasNonemptyQueue sys r.team r.prob = true
       ∧ (∀ p ∈ sys.problemList, hasNonemptyQueue sys r.team p = true →
           p = r.prob ∨ strLt r.prob p = true))
    ∧ (statusOf r.sys r.team r.prob
        = { (statusOf sys r.team r.prob).frozenSubs.foldl replaySub
              (statusOf sys r.team r.prob) with frozenSubs := [] }
       ∧ (∀ ps sub, replaySub ps sub = applySubmit ps sub.status sub.time)
       ∧ (∀ (ps : ProblemStatus) (sub : Submission), ps.solved = true →
           replaySub ps sub = ps)
       ∧ (∀ tn p, tn ≠ r.team ∨ p ≠ r.prob →
           statusOf r.sys tn p = statusOf sys tn p)) := by
  obtain ⟨hf, hteam, hold, hprob, hsys, hnew, hnote⟩ := scrollStep_eq_some h
  have hpos : ∀ p ∈ sys.lastRanking, 1 ≤ p.2 := by
    intro p hp
    rw [h1] at hp
    exact (calculateRanking_rank_pos sys hp).1
  obtain ⟨hmem, hfroz, hmax⟩ := findLowest_spec sys hpos hf
  rw [← hteam, ← hold] at hmem
  rw [← hteam] at hfroz
  rw [← hold] at hmax
  have hfind := selectProb_find hfroz
  rw [← hprob] at hfind
  refine ⟨⟨hmem, hfroz, hmax⟩, ⟨hfind, List.find?_some hfind, ?_⟩, ?_, ?_, ?_, ?_⟩
  · -- minimality in problemList order
    intro p hp hq
    obtain ⟨hpr, as, bs, hdec, hpre⟩ := List.find?_eq_some.mp hfind
    rw [hdec] at hp hsort
    rcases List.mem_append.mp hp with hp1 | hp1
    · exfalso
      have := hpre p hp1
      rw [hq] at this
      simp at this
    · rcases List.mem_cons.mp hp1 with hp2 | hp2
      · exact Or.inl hp2
      · right
        have hpw := (List.pairwise_append.mp hsort).2.1
        exact (List.pairwise_cons.mp hpw).1 p hp2
  · rw [hsys]
    exact statusOf_revealAt_self sys r.team r.prob
  · exact fun ps sub => replaySub_eq_applySubmit ps sub
  · intro ps sub hs
    rw [replaySub_eq_applySubmit, applySubmit_solved hs]
  · intro tn p hne
    rw [hsys]
    exact statusOf_revealAt_ne sys hne

theorem claim_C3_witness :
    (wStepRes.team, wStepRes.oldRank) ∈ wScroll.lastRanking :=
  ((claim_C3 wScroll wStepRes (by decide) (by decide) (by decide)).1).1

/-- C4: after a reveal step, a rank-change notification is produced exactly
when the revealed team's new rank is strictly smaller than the rank it held
when selected; the notification names the revealed team, the team now
occupying position `newRank + 1` of the freshly recomputed ranking, and the
revealed team's new solved count and penalty; otherwise nothing is
emitted. -/
theorem claim_C4 (sys : ICPCSystem) (r : ScrollStepResult)
    (h : scrollStep sys = some r)
    (h1 : sys.lastRanking = calculateRanking sys) :
    (r.note.isSome = true ↔ r.newRank < r.oldRank)
    ∧ (∀ a b c d, r.note = some (a, b, c, d) →
        a = r.team
        ∧ (b, r.newRank + 1) ∈ r.sys.lastRanking
        ∧ c = (getTeamRankInfo r.sys r.team).solved
        ∧ d = (getTeamRankInfo r.sys r.team).penalty)
    ∧ (¬ r.newRank < r.oldRank → r.note = none) := by
  obtain ⟨hf, hteam, hold, hprob, hsys, hnew, hnote⟩ := scrollStep_eq_some h
  by_cases hlt : r.newRank < r.oldRank
  · rw [if_pos hlt] at hnote
    refine ⟨by rw [hnote]; simp [hlt], ?_, fun hc => absurd hlt hc⟩
    intro a b c d hn
    rw [hnote] at hn
    have h4 := Option.some.inj hn
    have ha : a = r.team := (congrArg Prod.fst h4).symm
    have hbv := congrArg (fun z => z.2.1) h4
    have hcv := congrArg (fun z => z.2.2.1) h4
    have hdv := congrArg (fun z => z.2.2.2) h4
    simp only at hbv hcv hdv
    have hpos : ∀ p ∈ sys.lastRanking, 1 ≤ p.2 := by
      intro p hp
      rw [h1] at hp
      exact (calculateRanking_rank_pos sys hp).1
    obtain ⟨hmem, _, _⟩ := findLowest_spec sys hpos hf
    rw [← hteam, ← hold] at hmem
    rw [h1] at hmem
    have hOldLe : r.oldRank ≤ sys.teamNames.length :=
      (calculateRanking_rank_pos sys hmem).2
    have hex : ∃ nm, (nm, r.newRank + 1)
        ∈ calculateRanking (revealAt sys r.team r.prob) := by
      refine exists_rank_entry _ (by omega) ?_
      have hteq : (revealAt sys r.team r.prob).teamNames = sys.teamNames := rfl
      rw [hteq]
      omega
    rcases hex with ⟨nm, hnm⟩
    have hfindSome : ((calculateRanking (revealAt sys r.team r.prob)).find?
        (fun p => p.2 = r.newRank + 1)).isSome :=
      List.find?_isSome.mpr ⟨(nm, r.newRank + 1), hnm, by simp⟩
    rcases Option.isSome_iff_exists.mp hfindSome with ⟨q, hq⟩
    have hqmem := List.mem_of_find?_eq_some hq
    have hqpred : q.2 = r.newRank + 1 := by simpa using List.find?_some hq
    have hbq : b = q.1 := by
      rw [hq] at hbv
      exact hbv.symm
    have hlr : r.sys.lastRanking
        = calculateRanking (revealAt sys r.team r.prob) := by
      rw [hsys]
    refine ⟨ha, ?_, hcv.symm, hdv.symm⟩
    rw [hlr, hbq, ← hqpred, Prod.mk.eta]
    exact hqmem
  · rw [if_neg hlt] at hnote
    refine ⟨?_, ?_, fun _ => hnote⟩
    · rw [hnote]
      simp [hlt]
    · intro a b c d hn
      rw [hnote] at hn
      cases hn

theorem claim_C4_witness :
    wStepRes.note.isSome = true ↔ wStepRes.newRank < wStepRes.oldRank :=
  (claim_C4 wScroll wStepRes (by decide) (by decide)).1

/-- C7: a reveal step never worsens the revealed team's rank — replaying its
own hidden queue either leaves its info unchanged or increases its solved
count, and in both cases no other team newly outranks it. -/
theorem claim_C7 (sys : ICPCSystem) (r : ScrollStepResult)
    (h : scrollStep sys = some r)
    (h1 : sys.lastRanking = calculateRanking sys)
    (hndT : sys.teamNames.Nodup) (hndP : sys.problemList.Nodup) :
    r.newRank ≤ r.oldRank := by
  obtain ⟨hf, hteam, hold, hprob, hsys, hnew, hnote⟩ := scrollStep_eq_some h
  have hpos : ∀ p ∈ sys.lastRanking, 1 ≤ p.2 := by
    intro p hp
    rw [h1] at hp
    exact (calculateRanking_rank_pos sys hp).1
  obtain ⟨hmem, hfroz, _⟩ := findLowest_spec sys hpos hf
  rw [← hteam, ← hold] at hmem
  rw [h1] at hmem
  have hT : r.team ∈ sys.teamNames := mem_teamNames_of_mem_calculateRanking hmem
  have hOld : r.oldRank = rankOf (calculateRanking sys) r.team :=
    (rankOf_of_mem_calculateRanking hndT hmem).symm
  have hT1 : r.team ∈ (revealAt sys r.team r.prob).teamNames := hT
  have hnd1 : (revealAt sys r.team r.prob).teamNames.Nodup := hndT
  rw [hOld, hnew]
  rw [rankOf_calculateRanking sys hndT hT,
    rankOf_calculateRanking (revealAt sys r.team r.prob) hnd1 hT1]
  have hkey : ∀ tn ∈ sys.teamNames,
      rankBetter (getTeamRankInfo (revealAt sys r.team r.prob) tn)
        (getTeamRankInfo (revealAt sys r.team r.prob) r.team) = true →
      rankBetter (getTeamRankInfo sys tn) (getTeamRankInfo sys r.team) = true := by
    intro tn htn hb
    by_cases htt : tn = r.team
    · subst htt
      rw [rankBetter_irrefl] at hb
      cases hb
    · rw [getTeamRankInfo_revealAt_ne sys r.prob htt] at hb
      rcases getTeamRankInfo_revealAt_self sys r.team r.prob hndP with hcase | hcase
      · rw [hcase] at hb
        exact hb
      · exact rankBetter_of_solved_succ hcase hb
  have hle : ((revealAt sys r.team r.prob).teamNames.map
        (getTeamRankInfo (revealAt sys r.team r.prob))).countP
        (fun y => rankBetter y (getTeamRankInfo (revealAt sys r.team r.prob) r.team))
      ≤ (sys.teamNames.map (getTeamRankInfo sys)).countP
        (fun y => rankBetter y (getTeamRankInfo sys r.team)) := by
    rw [List.countP_map, List.countP_map]
    have hteq : (revealAt sys r.team r.prob).teamNames = sys.teamNames := rfl
    rw [hteq]
    refine List.countP_mono_left ?_
    intro tn htn hb
    exact hkey tn htn hb
  omega

theorem claim_C7_witness : wStepRes.newRank ≤ wStepRes.oldRank :=
  claim_C7 wScroll wStepRes (by decide) (by decide) (by decide) (by decide)

/-- C8: the scroll loop terminates within `teams * problems` reveal steps —
every step empties exactly one registered team-problem hidden queue (the
termination measure drops by exactly one) and the measure is bounded by
`teams * problems`, so after that many steps the loop's exit condition
holds. -/
theorem claim_C8 (sys : ICPCSystem)
    (h1 : sys.lastRanking = calculateRanking sys)
    (hndT : sys.teamNames.Nodup) (hndP : sys.problemList.Nodup) :
    (∀ r, scrollStep sys = some r → frozenPairCount r.sys + 1 = frozenPairCount sys)
    ∧ frozenPairCount sys ≤ sys.teamNames.length * sys.problemList.length
    ∧ scrollStep (runSteps (sys.teamNames.length * sys.problemList.length) sys)
        = none := by
  refine ⟨fun r hr => scrollStep_count hr h1 hndT hndP, frozenPairCount_le sys, ?_⟩
  exact runSteps_none h1 hndT hndP (frozenPairCount_le sys)

theorem claim_C8_witness :
    scrollStep (runSteps (wScroll.teamNames.length * wScroll.problemList.length)
      wScroll) = none :=
  (claim_C8 wScroll (by decide) (by decide) (by decide)).2.2
